import Mathlib

/-!
# Endpoint availability monitor (`main.go`)

A shallow embedding of the monitor and the properties of its specification.

* Go strings are byte sequences: `GoString` is a list of byte values, and the
  bytes of the separators are written as numbers (47 is "/", 58 is ":").
* `extractDomain` calls `url.Parse`, `(*URL).Hostname` and `strings.Split`.
  They are modelled after the Go standard library (`net/url` and `strings` of
  go1.22), function by function.  Later releases of `net/url` reject some
  addresses that go1.22 accepts; `urlParseUnder` stands for such a release.
* The host component of an address is defined a second time on the text of
  the address, in the words of RFC 3986 (`hostComponent`), and compared with
  what the code computes.
* `stats`, a `map[string]*DomainStats`, is an association list; reading a
  missing key gives `none`, the nil pointer.
* `checkHealth` is a transition of the registry.  What the HTTP library
  answers (`http.NewRequest` fails, `client.Do` fails, or a response with a
  status code arrives after a measured duration) is an argument of the
  transition, so that a property proved for every `Outcome` holds whatever
  the network does.
* The counters are Go `int`s of 64 bits: their values are integers from
  `-2 ^ 63` to `2 ^ 63 - 1`, and `Total++` and `Success++` wrap around
  (`goInc`), as the machine addition does.
* `logResults` computes in `float64`.  A finite `float64` is modelled by the
  rational it denotes, and every conversion and operation rounds to a 53-bit
  significand, as the hardware does.
* A panic (an index out of range, a nil pointer) is the result `none`.
* The goroutines of `monitorEndpoints` are modelled by the interleavings of
  their reads and writes of the counters of one entry: `runSchedule` follows
  `Total++` alone, `runProbes` follows `Total++` and `Success++`.
-/

namespace SRE

/-! ## Go strings -/

/-- A Go string: a sequence of bytes. -/
abbrev GoString := List Nat

/-- UTF-8 encoding of one code point. -/
def utf8Bytes (c : Char) : List Nat :=
  let n := c.toNat
  if n < 0x80 then [n]
  else if n < 0x800 then [0xC0 + n / 64, 0x80 + n % 64]
  else if n < 0x10000 then [0xE0 + n / 4096, 0x80 + n / 64 % 64, 0x80 + n % 64]
  else [0xF0 + n / 262144, 0x80 + n / 4096 % 64, 0x80 + n / 64 % 64, 0x80 + n % 64]

/-- The Go string written by a string literal. -/
def goStr (s : String) : GoString :=
  s.toList.flatMap utf8Bytes

/-- Model of strings.HasPrefix. -/
def hasPrefix (s pre : GoString) : Bool :=
  pre.isPrefixOf s

/-- Model of strings.HasSuffix. -/
def hasSuffix (s suf : GoString) : Bool :=
  suf.isSuffixOf s

/-- Model of strings.Index: the position of the first occurrence of `sub`
in `s`, `none` standing for Go's `-1`. -/
def stringsIndex : GoString → GoString → Option Nat
  | [], sub => if hasPrefix [] sub then some 0 else none
  | c :: cs, sub =>
    if hasPrefix (c :: cs) sub then some 0
    else (stringsIndex cs sub).map (· + 1)

/-- Scan for strings.LastIndex: `i` is the position of the head of the list,
`best` the last match seen so far. -/
def lastIndexGo (sub : GoString) : GoString → Nat → Option Nat → Option Nat
  | [], i, best => if hasPrefix [] sub then some i else best
  | c :: cs, i, best =>
    lastIndexGo sub cs (i + 1) (if hasPrefix (c :: cs) sub then some i else best)

/-- Model of strings.LastIndex, `none` standing for Go's `-1`. -/
def stringsLastIndex (s sub : GoString) : Option Nat :=
  lastIndexGo sub s 0 none

/-- Model of strings.Contains. -/
def stringsContains (s sub : GoString) : Bool :=
  (stringsIndex s sub).isSome

/-- Model of strings.Cut: the text before and after the first occurrence of
`sep`, and whether `sep` occurs. -/
def stringsCut (s sep : GoString) : GoString × GoString × Bool :=
  match stringsIndex s sep with
  | some i => (s.take i, s.drop (i + sep.length), true)
  | none => (s, [], false)

/-- Scan for strings.Count with a non-empty `sub`: non-overlapping occurrences,
left to right; `skip` bytes of the last occurrence are still to be passed. -/
def countGo (sub : GoString) : GoString → Nat → Nat
  | [], _ => 0
  | _ :: cs, skip + 1 => countGo sub cs skip
  | c :: cs, 0 =>
    if hasPrefix (c :: cs) sub then 1 + countGo sub cs (sub.length - 1)
    else countGo sub cs 0

/-- Model of strings.Count for a non-empty `sub` (for the empty string Go
counts runes; the byte count stands in for it). -/
def stringsCount (s sub : GoString) : Nat :=
  if sub = [] then s.length + 1 else countGo sub s 0

/-- The loop of strings.genSplit: at most `n` cuts. -/
def genSplitLoop (sep : GoString) : Nat → GoString → List GoString
  | 0, s => [s]
  | n + 1, s =>
    match stringsIndex s sep with
    | none => [s]
    | some m => s.take m :: genSplitLoop sep n (s.drop (m + sep.length))

/-- Model of strings.Split (genSplit with `sepSave = 0`, `n = -1`).  With an
empty separator Go explodes the string into UTF-8 sequences; that case, which
the program never uses, is modelled bytewise. -/
def stringsSplit (s sep : GoString) : List GoString :=
  if sep = [] then s.map (fun b => [b])
  else genSplitLoop sep (stringsCount s sep) s

/-- Model of strings.ToLower on ASCII letters. -/
def stringsToLower (s : GoString) : GoString :=
  s.map (fun b => if 65 ≤ b ∧ b ≤ 90 then b + 32 else b)

/-! ## Model of `net/url` -/

/-- The errors returned by url.Parse. -/
inductive ParseError where
  | invalidControlCharacter
  | emptyURL
  | invalidURIForRequest
  | missingProtocolScheme
  | firstPathSegmentColon
  | missingBracket
  | invalidPort
  | invalidUserinfo
  | escapeError
  | invalidHostError
  deriving DecidableEq, Repr

/-- The escaping modes of net/url. -/
inductive Encoding where
  | encodePath
  | encodePathSegment
  | encodeHost
  | encodeZone
  | encodeUserPassword
  | encodeQueryComponent
  | encodeFragment
  deriving DecidableEq, Repr

/-- The fields of url.URL that url.Parse fills in (RawPath and RawFragment,
which are hints recomputed from Path and Fragment, are left out). -/
structure URL where
  Scheme : GoString := []
  Opaque : GoString := []
  User : Option (GoString × Option GoString) := none
  Host : GoString := []
  Path : GoString := []
  ForceQuery : Bool := false
  RawQuery : GoString := []
  Fragment : GoString := []
  OmitHost : Bool := false
  deriving DecidableEq, Repr

deriving instance DecidableEq for Except

/-- Model of stringContainsCTLByte. -/
def stringContainsCTLByte (s : GoString) : Bool :=
  s.any (fun b => b < 0x20 || b == 0x7f)

/-- Is the byte an ASCII letter. -/
def isAlpha (c : Nat) : Bool :=
  (97 ≤ c && c ≤ 122) || (65 ≤ c && c ≤ 90)

/-- Is the byte an ASCII digit. -/
def isDigit (c : Nat) : Bool :=
  48 ≤ c && c ≤ 57

/-- The loop of getScheme: `rest` is `rawURL` from position `i` on. -/
def getSchemeGo (rawURL : GoString) : GoString → Nat → Except ParseError (GoString × GoString)
  | [], _ => .ok ([], rawURL)
  | c :: cs, i =>
    if isAlpha c then getSchemeGo rawURL cs (i + 1)
    else if isDigit c || c == 43 || c == 45 || c == 46 then
      if i == 0 then .ok ([], rawURL) else getSchemeGo rawURL cs (i + 1)
    else if c == 58 then
      if i == 0 then .error .missingProtocolScheme
      else .ok (rawURL.take i, rawURL.drop (i + 1))
    else .ok ([], rawURL)

/-- Model of getScheme: the scheme and the rest after the colon. -/
def getScheme (rawURL : GoString) : Except ParseError (GoString × GoString) :=
  getSchemeGo rawURL rawURL 0

/-- Model of ishex. -/
def ishex (c : Nat) : Bool :=
  isDigit c || (97 ≤ c && c ≤ 102) || (65 ≤ c && c ≤ 70)

/-- Model of unhex. -/
def unhex (c : Nat) : Nat :=
  if isDigit c then c - 48
  else if 97 ≤ c ∧ c ≤ 102 then c - 97 + 10
  else if 65 ≤ c ∧ c ≤ 70 then c - 65 + 10
  else 0

/-- Model of shouldEscape. -/
def shouldEscape (c : Nat) (mode : Encoding) : Bool :=
  if isAlpha c || isDigit c then false
  else if (mode = .encodeHost ∨ mode = .encodeZone) ∧
      c ∈ [33, 36, 38, 39, 40, 41, 42, 43, 44, 59, 61, 58, 91, 93, 60, 62, 34] then false
  else if c ∈ [45, 95, 46, 126] then false
  else if c ∈ [36, 38, 43, 44, 47, 58, 59, 61, 63, 64] then
    match mode with
    | .encodePath => c == 63
    | .encodePathSegment => c == 47 || c == 59 || c == 44 || c == 63
    | .encodeUserPassword => c == 64 || c == 47 || c == 63 || c == 58
    | .encodeQueryComponent => true
    | .encodeFragment => false
    | _ => true
  else if mode = .encodeFragment ∧ c ∈ [33, 40, 41, 42] then false
  else true

/-- The first loop of unescape: checks that the escapes are well formed and
returns whether anything has to be rewritten. -/
def unescapeCheck (mode : Encoding) : GoString → Except ParseError Bool
  | [] => .ok false
  | c :: cs =>
    if c = 37 then
      match cs with
      | h1 :: h2 :: rest =>
        if !ishex h1 || !ishex h2 then .error .escapeError
        else if mode = .encodeHost ∧ unhex h1 < 8 ∧ [c, h1, h2] ≠ [37, 50, 53] then
          .error .escapeError
        else if mode = .encodeZone ∧ [c, h1, h2] ≠ [37, 50, 53] ∧
            unhex h1 * 16 + unhex h2 ≠ 32 ∧
            shouldEscape (unhex h1 * 16 + unhex h2) .encodeHost then
          .error .escapeError
        else (unescapeCheck mode rest).map (fun _ => true)
      | _ => .error .escapeError
    else if c = 43 then
      (unescapeCheck mode cs).map (fun r => r || decide (mode = .encodeQueryComponent))
    else if (mode = .encodeHost ∨ mode = .encodeZone) ∧ c < 0x80 ∧ shouldEscape c .encodeHost then
      .error .invalidHostError
    else unescapeCheck mode cs

/-- The second loop of unescape: rewrites the escapes. -/
def unescapeBuild (mode : Encoding) : GoString → GoString
  | [] => []
  | c :: cs =>
    if c = 37 then
      match cs with
      | h1 :: h2 :: rest => (unhex h1 * 16 + unhex h2) :: unescapeBuild mode rest
      | _ => [c]
    else if c = 43 then
      (if mode = .encodeQueryComponent then 32 else 43) :: unescapeBuild mode cs
    else c :: unescapeBuild mode cs

/-- Model of unescape. -/
def unescape (s : GoString) (mode : Encoding) : Except ParseError GoString :=
  match unescapeCheck mode s with
  | .error e => .error e
  | .ok false => .ok s
  | .ok true => .ok (unescapeBuild mode s)

/-- Model of validOptionalPort: the empty string or a colon and digits. -/
def validOptionalPort (port : GoString) : Bool :=
  match port with
  | [] => true
  | c :: rest => c == 58 && rest.all (fun b => !(b < 48 || b > 57))

/-- Model of parseHost. -/
def parseHost (host : GoString) : Except ParseError GoString :=
  if hasPrefix host [91] then
    match stringsLastIndex host [93] with
    | none => .error .missingBracket
    | some i =>
      let colonPort := host.drop (i + 1)
      if !validOptionalPort colonPort then .error .invalidPort
      else
        match stringsIndex (host.take i) [37, 50, 53] with
        | some zone =>
          match unescape (host.take zone) .encodeHost with
          | .error e => .error e
          | .ok host1 =>
            match unescape ((host.take i).drop zone) .encodeZone with
            | .error e => .error e
            | .ok host2 =>
              match unescape (host.drop i) .encodeHost with
              | .error e => .error e
              | .ok host3 => .ok (host1 ++ host2 ++ host3)
        | none => unescape host .encodeHost
  else
    match stringsLastIndex host [58] with
    | some i =>
      if !validOptionalPort (host.drop i) then .error .invalidPort
      else unescape host .encodeHost
    | none => unescape host .encodeHost

/-- Model of validUserinfo. -/
def validUserinfo (s : GoString) : Bool :=
  s.all (fun r => isAlpha r || isDigit r ||
    decide (r ∈ [45, 46, 95, 58, 126, 33, 36, 38, 39, 40, 41, 42, 43, 44, 59, 61, 37, 64]))

/-- Model of parseAuthority: the user information and the host. -/
def parseAuthority (authority : GoString) :
    Except ParseError (Option (GoString × Option GoString) × GoString) :=
  let i := stringsLastIndex authority [64]
  let hostText := match i with
    | none => authority
    | some i => authority.drop (i + 1)
  match parseHost hostText with
  | .error e => .error e
  | .ok host =>
    match i with
    | none => .ok (none, host)
    | some i =>
      let userinfo := authority.take i
      if !validUserinfo userinfo then .error .invalidUserinfo
      else if !stringsContains userinfo [58] then
        match unescape userinfo .encodeUserPassword with
        | .error e => .error e
        | .ok u => .ok (some (u, none), host)
      else
        let (username, password, _) := stringsCut userinfo [58]
        match unescape username .encodeUserPassword with
        | .error e => .error e
        | .ok u =>
          match unescape password .encodeUserPassword with
          | .error e => .error e
          | .ok p => .ok (some (u, some p), host)

/-- Model of (*URL).setPath, up to the RawPath hint. -/
def setPath (u : URL) (p : GoString) : Except ParseError URL :=
  match unescape p .encodePath with
  | .error e => .error e
  | .ok path => .ok { u with Path := path }

/-- Model of (*URL).setFragment, up to the RawFragment hint. -/
def setFragment (u : URL) (f : GoString) : Except ParseError URL :=
  match unescape f .encodeFragment with
  | .error e => .error e
  | .ok frag => .ok { u with Fragment := frag }

/-- Model of the unexported parse of net/url. -/
def parse (rawURL : GoString) (viaRequest : Bool) : Except ParseError URL :=
  if stringContainsCTLByte rawURL then .error .invalidControlCharacter
  else if rawURL = [] ∧ viaRequest then .error .emptyURL
  else if rawURL = [42] then .ok { Path := [42] }
  else
    match getScheme rawURL with
    | .error e => .error e
    | .ok (scheme0, rest0) =>
      let scheme := stringsToLower scheme0
      let forceQuery := hasSuffix rest0 [63] && stringsCount rest0 [63] == 1
      let rest1 := if forceQuery then rest0.take (rest0.length - 1) else (stringsCut rest0 [63]).1
      let rawQuery := if forceQuery then [] else (stringsCut rest0 [63]).2.1
      let url : URL := { Scheme := scheme, ForceQuery := forceQuery, RawQuery := rawQuery }
      if !hasPrefix rest1 [47] ∧ scheme ≠ [] then .ok { url with Opaque := rest1 }
      else if !hasPrefix rest1 [47] ∧ viaRequest then .error .invalidURIForRequest
      else if !hasPrefix rest1 [47] ∧ stringsContains (stringsCut rest1 [47]).1 [58] then
        .error .firstPathSegmentColon
      else if (scheme ≠ [] ∨ (!viaRequest ∧ !hasPrefix rest1 [47, 47, 47])) ∧
          hasPrefix rest1 [47, 47] then
        let authority0 := rest1.drop 2
        let authority := match stringsIndex authority0 [47] with
          | some i => authority0.take i
          | none => authority0
        let rest2 := match stringsIndex authority0 [47] with
          | some i => authority0.drop i
          | none => []
        match parseAuthority authority with
        | .error e => .error e
        | .ok (user, host) => setPath { url with User := user, Host := host } rest2
      else if scheme ≠ [] ∧ hasPrefix rest1 [47] then
        setPath { url with OmitHost := true } rest1
      else setPath url rest1

/-- Model of url.Parse. -/
def urlParse (rawURL : GoString) : Except ParseError URL :=
  let (u, frag, _) := stringsCut rawURL [35]
  match parse u false with
  | .error e => .error e
  | .ok url => if frag = [] then .ok url else setFragment url frag

/-- Model of splitHostPort. -/
def splitHostPort (hostPort : GoString) : GoString × GoString :=
  let colon := stringsLastIndex hostPort [58]
  let hp : GoString × GoString := match colon with
    | some i =>
      if validOptionalPort (hostPort.drop i) then (hostPort.take i, hostPort.drop (i + 1))
      else (hostPort, [])
    | none => (hostPort, [])
  if hasPrefix hp.1 [91] && hasSuffix hp.1 [93] then ((hp.1.take (hp.1.length - 1)).drop 1, hp.2)
  else hp

/-- Model of (*URL).Hostname. -/
def URL.Hostname (u : URL) : GoString :=
  (splitHostPort u.Host).1

/-! ## The program -/

/-- Source: extractDomain.  Indexing a slice out of its range panics; `none`
stands for the panic. -/
def extractDomain (rawURL : GoString) : Option GoString :=
  match urlParse rawURL with
  | .error _ =>
    let urlSplit := stringsSplit rawURL [47, 47]
    match urlSplit[urlSplit.length - 1]? with
    | none => none
    | some last => (stringsSplit last [47])[0]?
  | .ok parsed => some parsed.Hostname

/-! ## The host component of an address

The host component in the words of RFC 3986, defined on the text of the
address without the parser of net/url. -/

/-- The text before the first occurrence of the byte `c`, all of `s` when `c`
does not occur. -/
def beforeFirst (c : Nat) (s : GoString) : GoString :=
  s.takeWhile (fun b => b != c)

/-- The text after the last occurrence of the byte `c`, all of `s` when `c`
does not occur. -/
def afterLast (c : Nat) (s : GoString) : GoString :=
  (s.reverse.takeWhile (fun b => b != c)).reverse

/-- Is the text a scheme name of RFC 3986: a letter followed by letters,
digits, "+", "-" and ".". -/
def isSchemeName : GoString → Bool
  | [] => false
  | c :: cs => isAlpha c && cs.all (fun b => isAlpha b || isDigit b || b == 43 || b == 45 || b == 46)

/-- The address without its scheme and the colon that ends it. -/
def withoutScheme (s : GoString) : GoString :=
  if (beforeFirst 58 s).length < s.length ∧ isSchemeName (beforeFirst 58 s) then
    s.drop ((beforeFirst 58 s).length + 1)
  else s

/-- The value of a hexadecimal digit. -/
def hexValue (c : Nat) : Nat :=
  if 48 ≤ c ∧ c ≤ 57 then c - 48
  else if 97 ≤ c ∧ c ≤ 102 then c - 87
  else if 65 ≤ c ∧ c ≤ 70 then c - 55
  else 0

/-- Percent-decoding: every "%" followed by two bytes is replaced by the byte
whose hexadecimal value they write. -/
def percentDecode : GoString → GoString
  | [] => []
  | c :: cs =>
    if c = 37 then
      match cs with
      | h1 :: h2 :: rest => (16 * hexValue h1 + hexValue h2) :: percentDecode rest
      | _ => c :: cs
    else c :: percentDecode cs

/-- The host and port without the port: a final ":" followed by digits only
(possibly none) is removed. -/
def withoutPort (h : GoString) : GoString :=
  match h.reverse.dropWhile isDigit with
  | 58 :: rest => rest.reverse
  | _ => h

/-- The host without the square brackets of an IP literal. -/
def withoutBrackets (h : GoString) : GoString :=
  if h.head? = some 91 ∧ h.getLast? = some 93 then (h.drop 1).dropLast else h

/-- The authority of an address in the sense of RFC 3986: the fragment (from
the first "#"), the scheme and the query (from the first "?") are removed; if
what remains starts with "//", the authority is the text after it up to the
next "/", and otherwise there is none. -/
def authorityOf (s : GoString) : GoString :=
  if [47, 47] <+: beforeFirst 63 (withoutScheme (beforeFirst 35 s)) then
    beforeFirst 47 ((beforeFirst 63 (withoutScheme (beforeFirst 35 s))).drop 2)
  else []

/-- The host component of an address: the authority after its user
information (which ends at the last "@"), percent-decoded, without the port
and without the brackets of an IP literal. -/
def hostComponent (s : GoString) : GoString :=
  withoutBrackets (withoutPort (percentDecode (afterLast 64 (authorityOf s))))

/-- Releases of net/url after go1.22 reject some addresses that go1.22 accepts
(a host in square brackets that is not an IPv6 address, a colon in the host
that does not introduce the port) and parse every other address as go1.22
does.  `rejected` stands for the additional check of such a release. -/
def urlParseUnder (rejected : GoString → Bool) (rawURL : GoString) : Except ParseError URL :=
  if rejected rawURL then .error .invalidHostError else urlParse rawURL

/-- Source: extractDomain, run with the url.Parse of such a release. -/
def extractDomainUnder (rejected : GoString → Bool) (rawURL : GoString) : Option GoString :=
  match urlParseUnder rejected rawURL with
  | .error _ =>
    let urlSplit := stringsSplit rawURL [47, 47]
    match urlSplit[urlSplit.length - 1]? with
    | none => none
    | some last => (stringsSplit last [47])[0]?
  | .ok parsed => some parsed.Hostname

/-! ## Model of `float64` and `math.Round`

A finite `float64` is the rational number it denotes.  Every operation
computes the exact result and rounds it to the nearest number with a 53-bit
significand, ties to the even significand.  The exponent range is not modelled:
the values the program computes from 64-bit counters stay far inside it. -/

/-- Rounding of a rational to the nearest integer, ties to the even one. -/
def roundNearestEven (x : ℚ) : ℤ :=
  if x - ⌊x⌋ < 1 / 2 then ⌊x⌋
  else if 1 / 2 < x - ⌊x⌋ then ⌊x⌋ + 1
  else if ⌊x⌋ % 2 = 0 then ⌊x⌋ else ⌊x⌋ + 1

/-- The binary exponent of a positive rational: `2 ^ e ≤ x < 2 ^ (e + 1)`. -/
def binade (x : ℚ) : ℤ :=
  Int.log 2 x

/-- Rounding of an exact result to `float64`. -/
def roundF64 (x : ℚ) : ℚ :=
  if x = 0 then 0
  else if 0 < x then roundNearestEven (x / 2 ^ (binade x - 52)) * 2 ^ (binade x - 52)
  else -(roundNearestEven (-x / 2 ^ (binade (-x) - 52)) * 2 ^ (binade (-x) - 52))

/-- The conversion `float64(n)` of an `int`. -/
def float64 (n : ℤ) : ℚ :=
  roundF64 n

/-- The product of two `float64` values. -/
def f64mul (a b : ℚ) : ℚ :=
  roundF64 (a * b)

/-- The quotient of two `float64` values, the divisor not zero. -/
def f64div (a b : ℚ) : ℚ :=
  roundF64 (a / b)

/-- Model of math.Round: the nearest integer, halves away from zero. -/
def mathRound (x : ℚ) : ℚ :=
  if 0 ≤ x then ⌊x + 1 / 2⌋ else -⌊-x + 1 / 2⌋

/-- The conversion `int(x)` of a `float64`: the fraction is discarded. -/
def floatToInt (x : ℚ) : ℤ :=
  if 0 ≤ x then ⌊x⌋ else ⌈x⌉

/-! ## The registry and the probe -/

/-- Source: type Endpoint. -/
structure Endpoint where
  Name : GoString
  URL : GoString
  Method : GoString
  Headers : List (GoString × GoString)
  Body : GoString
  deriving DecidableEq, Repr

/-- The value an arithmetic result has as a Go `int` on a 64-bit platform:
the integers from `-2 ^ 63` to `2 ^ 63 - 1`, with two's complement wrap-around. -/
def wrapInt (x : ℤ) : ℤ :=
  (x + 2 ^ 63) % 2 ^ 64 - 2 ^ 63

/-- The statement `x++` on an `int`: one more, `2 ^ 63 - 1` wrapping to
`-2 ^ 63`. -/
def goInc (x : ℤ) : ℤ :=
  wrapInt (x + 1)

/-- Source: type DomainStats.  Both fields are Go `int`s: the program stores
values from `-2 ^ 63` to `2 ^ 63 - 1` in them and changes them with `++` only. -/
structure DomainStats where
  Success : ℤ := 0
  Total : ℤ := 0
  deriving DecidableEq, Repr

/-- Source: the global `stats`, a map from domain to its counters. -/
abbrev Stats := List (GoString × DomainStats)

/-- The map read `stats[domain]`; `none` is the nil pointer of a missing key. -/
def Stats.get (stats : Stats) (domain : GoString) : Option DomainStats :=
  match stats with
  | [] => none
  | (k, v) :: rest => if k = domain then some v else Stats.get rest domain

/-- The map write `stats[domain] = v`. -/
def Stats.set (stats : Stats) (domain : GoString) (v : DomainStats) : Stats :=
  match stats with
  | [] => [(domain, v)]
  | (k, w) :: rest => if k = domain then (k, v) :: rest else (k, w) :: Stats.set rest domain v

/-- The lines `if stats[domain] == nil { stats[domain] = &DomainStats{} }`. -/
def Stats.ensure (stats : Stats) (domain : GoString) : Stats :=
  match stats.get domain with
  | none => stats.set domain {}
  | some _ => stats

/-- The statement `stats[domain].Total++`; dereferencing a nil pointer
panics, `none` stands for the panic. -/
def Stats.incTotal (stats : Stats) (domain : GoString) : Option Stats :=
  match stats.get domain with
  | none => none
  | some st => some (stats.set domain { st with Total := goInc st.Total })

/-- The statement `stats[domain].Success++`. -/
def Stats.incSuccess (stats : Stats) (domain : GoString) : Option Stats :=
  match stats.get domain with
  | none => none
  | some st => some (stats.set domain { st with Success := goInc st.Success })

/-- What the HTTP library answers to one probe: http.NewRequest fails, or
client.Do fails, or client.Do returns a response with a status code; the
durations are what time.Since measured, in nanoseconds. -/
inductive Outcome where
  | requestError
  | transportError (duration : ℤ)
  | response (statusCode : ℤ) (duration : ℤ)
  deriving DecidableEq, Repr

/-- The constant time.Millisecond, in nanoseconds. -/
def millisecond : ℤ := 1000000

/-- Source: checkHealth, as a transition of the registry; the log lines are
not part of the state. -/
def checkHealth (stats : Stats) (endpoint : Endpoint) (outcome : Outcome) : Option Stats :=
  match extractDomain endpoint.URL with
  | none => none
  | some domain =>
    let stats1 := stats.ensure domain
    match outcome with
    | .requestError => stats1.incTotal domain
    | .transportError _ => stats1.incTotal domain
    | .response statusCode duration =>
      match stats1.incTotal domain with
      | none => none
      | some stats2 =>
        if statusCode < 200 ∨ statusCode ≥ 300 then some stats2
        else if duration > 500 * millisecond then some stats2
        else stats2.incSuccess domain

/-- The counters of a domain as a probe sees them after the nil check: zero
for a domain that has no entry yet. -/
def Stats.counters (stats : Stats) (domain : GoString) : DomainStats :=
  (stats.get domain).getD {}

/-- The branch of checkHealth that reaches `stats[domain].Success++`: a
response arrived, neither guard of the final `if` chain holds. -/
def probeSucceeded : Outcome → Bool
  | .response statusCode duration =>
    !(decide (statusCode < 200 ∨ statusCode ≥ 300)) && !(decide (duration > 500 * millisecond))
  | _ => false

/-- The Success counter of the endpoint's domain as the call finds it. -/
def successBefore (stats : Stats) (endpoint : Endpoint) : Option ℤ :=
  (extractDomain endpoint.URL).map (fun domain => (stats.counters domain).Success)

/-- The Total counter of the endpoint's domain as the call finds it. -/
def totalBefore (stats : Stats) (endpoint : Endpoint) : Option ℤ :=
  (extractDomain endpoint.URL).map (fun domain => (stats.counters domain).Total)

/-- The Success counter of the endpoint's domain after the call; `none` if
the call panics. -/
def successAfter (stats : Stats) (endpoint : Endpoint) (outcome : Outcome) : Option ℤ :=
  match extractDomain endpoint.URL, checkHealth stats endpoint outcome with
  | some domain, some stats1 => some (stats1.counters domain).Success
  | _, _ => none

/-- The Total counter of the endpoint's domain after the call; `none` if the
call panics. -/
def totalAfter (stats : Stats) (endpoint : Endpoint) (outcome : Outcome) : Option ℤ :=
  match extractDomain endpoint.URL, checkHealth stats endpoint outcome with
  | some domain, some stats1 => some (stats1.counters domain).Total
  | _, _ => none

/-- The invariant of the data model, with the bound that keeps the counters
away from the wrap: every entry has 0 ≤ success ≤ total ≤ n. -/
def Stats.CountersOk (stats : Stats) (n : ℤ) : Prop :=
  ∀ d st, stats.get d = some st → 0 ≤ st.Success ∧ st.Success ≤ st.Total ∧ st.Total ≤ n

/-- Source: the availability computed in the loop body of logResults. -/
def availability (stat : DomainStats) : ℤ :=
  if stat.Total > 0 then
    floatToInt (mathRound (f64div (f64mul 100 (float64 stat.Success)) (float64 stat.Total)))
  else 0

/-- The reading of "the integer nearest to 100 * success / total, ties rounded
away from zero" for a nonnegative quotient: `p - 1/2 ≤ 100 * success / total
< p + 1/2`, cleared of denominators. -/
def IsNearestPercent (success total p : ℤ) : Prop :=
  total * (2 * p - 1) ≤ 200 * success ∧ 200 * success < total * (2 * p + 1)

/-- Source: logResults; one pair of domain and printed percentage for each
line of the report (Go iterates the map in no particular order). -/
def logResults (stats : Stats) : List (GoString × ℤ) :=
  stats.map (fun entry => (entry.1, availability entry.2))

/-- Source: the pre-seeding loop of monitorEndpoints. -/
def preSeed (stats : Stats) : List Endpoint → Option Stats
  | [] => some stats
  | endpoint :: rest =>
    match extractDomain endpoint.URL with
    | none => none
    | some domain => preSeed (stats.ensure domain) rest

/-- A sequence of checkHealth calls that run one after the other. -/
def runCalls (stats : Stats) : List (Endpoint × Outcome) → Option Stats
  | [] => some stats
  | call :: rest =>
    match checkHealth stats call.1 call.2 with
    | none => none
    | some stats1 => runCalls stats1 rest

/-- The bytes of a registered host name: letters, digits, "-" and ".". -/
def hostByte (b : Nat) : Bool :=
  isAlpha b || isDigit b || b == 45 || b == 46

/-- The bytes of a plain path: no control byte and none of "#", "?", "%". -/
def pathByte (b : Nat) : Bool :=
  !(b < 0x20 || b == 0x7f || b == 35 || b == 63 || b == 37)

/-- The trailing segment of the spec's fallback: the text after the first
occurrence of "//", the whole address when "//" does not occur. -/
def afterFirstDoubleSlash (rawURL : GoString) : GoString :=
  match stringsCut rawURL [47, 47] with
  | (_, after, true) => after
  | (_, _, false) => rawURL

/-- The fallback in the words of the spec: split on the first occurrence of
"//", take the trailing segment, then split on the first "/" and take the
leading segment. -/
def fallbackFirstOccurrence (rawURL : GoString) : GoString :=
  (stringsCut (afterFirstDoubleSlash rawURL) [47]).1

/-- An endpoint of the domain a.com, used in examples. -/
def probeA : Endpoint :=
  { Name := goStr "a", URL := goStr "https://a.com/health", Method := goStr "GET",
    Headers := [], Body := [] }

/-- A second endpoint of the domain a.com, on another port. -/
def probeB : Endpoint :=
  { Name := goStr "b", URL := goStr "https://a.com:8443/v1", Method := goStr "POST",
    Headers := [], Body := goStr "ping" }

/-! ## Concurrent probes

monitorEndpoints starts every probe with `go checkHealth(endpoint)` and the
program has no lock.  With respect to the shared entry of one domain, an
invocation of checkHealth executes `stats[domain].Total++` once, on either
path; the statement is a read of the counter followed by a write of the value
read plus one, and the scheduler may run steps of other invocations between
the two. -/

/-- Where one invocation stands in its `Total++`: not yet read, read the value
`r` and not yet written, or finished. -/
inductive Phase where
  | ready
  | loaded (r : ℤ)
  | done
  deriving DecidableEq, Repr

/-- The number of invocations that have completed. -/
def doneCount : List Phase → Nat
  | [] => 0
  | .done :: ps => doneCount ps + 1
  | _ :: ps => doneCount ps

/-! ## Concurrent probes of one cycle

For the report of a cycle both counters matter.  With respect to the entry of
its domain, an invocation of checkHealth executes `Total++` and then, on the
success branch only, `Success++`; each is a read followed by a write. -/

/-- Where one invocation stands: before `Total++`, between its read and its
write, after it on the success branch, between the read and the write of
`Success++`, or finished. -/
inductive ProbePhase where
  | start
  | totalLoaded (r : ℤ)
  | totalStored
  | successLoaded (r : ℤ)
  | finished
  deriving DecidableEq, Repr

/-- An invocation in flight: whether its outcome reaches `Success++`, and its
phase. -/
structure Probe where
  succeeded : Bool
  phase : ProbePhase
  deriving DecidableEq, Repr

/-- One atomic step of an invocation on the entry of its domain. -/
def stepProbe (entry : DomainStats) (p : Probe) : Probe × DomainStats :=
  match p.phase with
  | .start => ({ p with phase := .totalLoaded entry.Total }, entry)
  | .totalLoaded r =>
    ({ p with phase := if p.succeeded then .totalStored else .finished },
      { entry with Total := goInc r })
  | .totalStored => ({ p with phase := .successLoaded entry.Success }, entry)
  | .successLoaded r => ({ p with phase := .finished }, { entry with Success := goInc r })
  | .finished => (p, entry)

/-- The scheduler lets invocation `i` take its next step. -/
def stepProbeAt : List Probe → Nat → DomainStats → List Probe × DomainStats
  | [], _, entry => ([], entry)
  | p :: ps, 0, entry => ((stepProbe entry p).1 :: ps, (stepProbe entry p).2)
  | p :: ps, i + 1, entry => (p :: (stepProbeAt ps i entry).1, (stepProbeAt ps i entry).2)

/-- The invocations and the entry after the steps of a schedule. -/
def runProbes : List Probe × DomainStats → List Nat → List Probe × DomainStats
  | st, [] => st
  | st, i :: rest => runProbes (stepProbeAt st.1 i st.2) rest

/-- The start of a cycle for the endpoints of one pre-seeded domain: one
invocation for each outcome, the counters being zero. -/
def dispatchProbes (outcomes : List Outcome) : List Probe × DomainStats :=
  (outcomes.map (fun o => { succeeded := probeSucceeded o, phase := .start }), {})

/-- All invocations of the cycle have completed. -/
def allFinished (probes : List Probe) : Bool :=
  probes.all (fun p => p.phase == .finished)

/-- The states a cycle with one succeeding and one failing probe of the same
domain can be in: the phase of the succeeding probe, the phase of the failing
probe, and the counters Success and Total of the entry. -/
def cycleStates : List (ProbePhase × ProbePhase × ℤ × ℤ) :=
  [(.start, .start, 0, 0), (.totalLoaded 0, .start, 0, 0), (.start, .totalLoaded 0, 0, 0),
   (.totalStored, .start, 0, 1), (.totalLoaded 0, .totalLoaded 0, 0, 0),
   (.start, .finished, 0, 1), (.successLoaded 0, .start, 0, 1),
   (.totalStored, .totalLoaded 1, 0, 1), (.totalStored, .totalLoaded 0, 0, 1),
   (.totalLoaded 0, .finished, 0, 1), (.totalLoaded 1, .finished, 0, 1),
   (.finished, .start, 1, 1), (.successLoaded 0, .totalLoaded 1, 0, 1),
   (.totalStored, .finished, 0, 2), (.successLoaded 0, .totalLoaded 0, 0, 1),
   (.totalStored, .finished, 0, 1), (.finished, .totalLoaded 1, 1, 1),
   (.successLoaded 0, .finished, 0, 2), (.finished, .totalLoaded 0, 1, 1),
   (.successLoaded 0, .finished, 0, 1), (.finished, .finished, 1, 2),
   (.finished, .finished, 1, 1)]

/-- A state of the cycle, the succeeding probe being the first invocation. -/
def cycleStateSF (c : ProbePhase × ProbePhase × ℤ × ℤ) : List Probe × DomainStats :=
  ([{ succeeded := true, phase := c.1 }, { succeeded := false, phase := c.2.1 }],
    { Success := c.2.2.1, Total := c.2.2.2 })

/-- A state of the cycle, the failing probe being the first invocation. -/
def cycleStateFS (c : ProbePhase × ProbePhase × ℤ × ℤ) : List Probe × DomainStats :=
  ([{ succeeded := false, phase := c.2.1 }, { succeeded := true, phase := c.1 }],
    { Success := c.2.2.1, Total := c.2.2.2 })

/-! ## Splitting -/

theorem genSplitLoop_ne_nil (sep : GoString) (n : Nat) (s : GoString) :
    genSplitLoop sep n s ≠ [] := by
  cases n with
  | zero => simp [genSplitLoop]
  | succ n =>
    unfold genSplitLoop
    cases stringsIndex s sep <;> simp

theorem stringsSplit_ne_nil (s sep : GoString) (hsep : sep ≠ []) :
    stringsSplit s sep ≠ [] := by
  simp [stringsSplit, hsep, genSplitLoop_ne_nil]

theorem genSplitLoop_of_index_none (sep : GoString) (n : Nat) (s : GoString)
    (h : stringsIndex s sep = none) : genSplitLoop sep n s = [s] := by
  cases n with
  | zero => rfl
  | succ n => simp [genSplitLoop, h]

theorem stringsSplit_of_not_contains (s sep : GoString) (hsep : sep ≠ [])
    (h : stringsContains s sep = false) : stringsSplit s sep = [s] := by
  have h1 : stringsIndex s sep = none := by
    simpa [stringsContains] using h
  simp [stringsSplit, hsep, genSplitLoop_of_index_none _ _ _ h1]

theorem last_index_in_range {α : Type} (l : List α) (h : l ≠ []) :
    ∃ x, l[l.length - 1]? = some x := by
  have hl : 0 < l.length := List.length_pos.mpr h
  exact ⟨l[l.length - 1], List.getElem?_eq_getElem (by omega)⟩

theorem first_index_in_range {α : Type} (l : List α) (h : l ≠ []) :
    ∃ x, l[0]? = some x := by
  cases l with
  | nil => exact absurd rfl h
  | cons a t => exact ⟨a, by simp⟩

theorem extractDomain_total (rawURL : GoString) : ∃ d, extractDomain rawURL = some d := by
  unfold extractDomain
  cases urlParse rawURL with
  | ok u => exact ⟨_, rfl⟩
  | error e =>
    obtain ⟨x, hx⟩ := last_index_in_range _ (stringsSplit_ne_nil rawURL [47, 47] (by simp))
    obtain ⟨y, hy⟩ := first_index_in_range _ (stringsSplit_ne_nil x [47] (by simp))
    simp only [hx, hy]
    exact ⟨y, rfl⟩

/-! ## The fallback of extractDomain -/

theorem countGo_skip (sub s : GoString) (k : Nat) :
    countGo sub s k = countGo sub (s.drop k) 0 := by
  induction s generalizing k with
  | nil => simp [countGo]
  | cons c cs ih =>
    cases k with
    | zero => rfl
    | succ k => simp [countGo, ih k]

theorem stringsIndex_nil (sub : GoString) (hsub : sub ≠ []) : stringsIndex [] sub = none := by
  cases sub with
  | nil => exact absurd rfl hsub
  | cons a t => simp [stringsIndex, hasPrefix]

/-- The text found by strings.Index: `sub` stands at the position returned. -/
theorem stringsIndex_spec (s sub : GoString) (m : Nat) (h : stringsIndex s sub = some m) :
    s = s.take m ++ sub ++ s.drop (m + sub.length) := by
  induction s generalizing m with
  | nil =>
    simp only [stringsIndex, hasPrefix] at h
    split at h
    · rename_i hp
      have : sub = [] := by simpa using hp
      simp [this]
    · cases h
  | cons c cs ih =>
    simp only [stringsIndex] at h
    split at h
    · rename_i hp
      cases h
      obtain ⟨t, ht⟩ := List.isPrefixOf_iff_prefix.mp hp
      simp only [List.take_zero, List.nil_append, Nat.zero_add]
      rw [← ht]
      simp
    · cases hi : stringsIndex cs sub with
      | none => simp [hi] at h
      | some j =>
        simp only [hi, Option.map_some', Option.some.injEq] at h
        subst h
        have := ih j hi
        simp only [List.take_succ_cons, List.cons_append]
        rw [show j + 1 + sub.length = (j + sub.length) + 1 by omega, List.drop_succ_cons]
        exact congrArg (c :: ·) this

theorem countGo_eq (sub : GoString) (hsub : sub ≠ []) (s : GoString) :
    countGo sub s 0 = match stringsIndex s sub with
      | none => 0
      | some m => 1 + countGo sub (s.drop (m + sub.length)) 0 := by
  have hlen : 1 ≤ sub.length := List.length_pos.mpr hsub
  induction s with
  | nil => simp [stringsIndex_nil sub hsub, countGo]
  | cons c cs ih =>
    by_cases hp : hasPrefix (c :: cs) sub = true
    · simp only [countGo, hp, if_true, stringsIndex]
      rw [countGo_skip]
      simp only [Nat.zero_add]
      rw [show sub.length = (sub.length - 1) + 1 by omega, List.drop_succ_cons]
      simp
    · simp only [countGo, hp, stringsIndex]
      rw [ih]
      cases stringsIndex cs sub with
      | none => simp
      | some j =>
        simp only [Bool.false_eq_true, if_false, Option.map_some']
        rw [show j + 1 + sub.length = (j + sub.length) + 1 by omega, List.drop_succ_cons]

/-- strings.Split cuts at the first occurrence of the separator and goes on
with the rest. -/
theorem stringsSplit_of_index_some (s sep : GoString) (hsep : sep ≠ []) (m : Nat)
    (h : stringsIndex s sep = some m) :
    stringsSplit s sep = s.take m :: stringsSplit (s.drop (m + sep.length)) sep := by
  have hc := countGo_eq sep hsep s
  rw [h] at hc
  have hc1 : countGo sep s 0 = countGo sep (s.drop (m + sep.length)) 0 + 1 := by
    rw [hc]; exact Nat.add_comm _ _
  simp only [stringsSplit, hsep, if_false, stringsCount]
  rw [hc1]
  simp only [genSplitLoop, h]

theorem stringsSplit_of_index_none (s sep : GoString) (hsep : sep ≠ [])
    (h : stringsIndex s sep = none) : stringsSplit s sep = [s] := by
  simp [stringsSplit, hsep, genSplitLoop_of_index_none _ _ _ h]

theorem stringsSplit_head (s sep : GoString) (hsep : sep ≠ []) :
    (stringsSplit s sep)[0]? = some (stringsCut s sep).1 := by
  cases h : stringsIndex s sep with
  | none => simp [stringsSplit_of_index_none s sep hsep h, stringsCut, h]
  | some m => simp [stringsSplit_of_index_some s sep hsep m h, stringsCut, h]

/-- The last piece of strings.Split: it contains no separator, and it is the
whole string or stands right after a separator at the end of the string. -/
theorem stringsSplit_getLast (sep : GoString) (hsep : sep ≠ []) :
    ∀ (n : Nat) (s : GoString), s.length ≤ n →
      ∃ last, (stringsSplit s sep).getLast? = some last ∧
        stringsContains last sep = false ∧
        (last = s ∨ ∃ pre, s = pre ++ sep ++ last) := by
  have hlen : 1 ≤ sep.length := List.length_pos.mpr hsep
  intro n
  induction n with
  | zero =>
    intro s hs
    have : s = [] := List.length_eq_zero.mp (by omega)
    subst this
    have h0 := stringsIndex_nil sep hsep
    exact ⟨[], by simp [stringsSplit_of_index_none [] sep hsep h0],
      by simp [stringsContains, h0], Or.inl rfl⟩
  | succ n ih =>
    intro s hs
    cases h : stringsIndex s sep with
    | none =>
      exact ⟨s, by simp [stringsSplit_of_index_none s sep hsep h],
        by simp [stringsContains, h], Or.inl rfl⟩
    | some m =>
      have hspec := stringsIndex_spec s sep m h
      have hl : (s.drop (m + sep.length)).length ≤ n := by
        have h1 := congrArg List.length hspec
        simp only [List.length_append] at h1
        rw [List.length_drop]
        omega
      obtain ⟨last, hlast, hno, hsuf⟩ := ih (s.drop (m + sep.length)) hl
      refine ⟨last, ?_, hno, Or.inr ?_⟩
      · rw [stringsSplit_of_index_some s sep hsep m h, List.getLast?_cons, hlast]
        rfl
      · rcases hsuf with heq | ⟨pre, hpre⟩
        · exact ⟨s.take m, by rw [heq]; exact hspec⟩
        · refine ⟨s.take m ++ sep ++ pre, ?_⟩
          calc s = s.take m ++ sep ++ s.drop (m + sep.length) := hspec
            _ = s.take m ++ sep ++ (pre ++ sep ++ last) := by rw [← hpre]
            _ = s.take m ++ sep ++ pre ++ sep ++ last := by simp [List.append_assoc]

theorem extractDomain_of_error (rawURL : GoString) (e : ParseError)
    (h : urlParse rawURL = .error e) :
    ∃ last, (stringsSplit rawURL [47, 47]).getLast? = some last ∧
      stringsContains last [47, 47] = false ∧
      (last = rawURL ∨ ∃ pre, rawURL = pre ++ [47, 47] ++ last) ∧
      extractDomain rawURL = some (stringsCut last [47]).1 := by
  obtain ⟨last, hlast, hno, hsuf⟩ :=
    stringsSplit_getLast [47, 47] (by simp) rawURL.length rawURL (le_refl _)
  refine ⟨last, hlast, hno, hsuf, ?_⟩
  unfold extractDomain
  rw [h]
  simp only
  rw [← List.getLast?_eq_getElem?, hlast]
  exact stringsSplit_head last [47] (by simp)

/-- C8: extractDomain returns a string for every input and never panics: the
split on "//" is a non-empty list, so its last element is in range, and the
split of that element on "/" is non-empty, so its first element is in range;
for an address that does not parse and contains neither "//" nor "/", the
fallback returns the input unchanged. -/
theorem extractDomain_never_panics (rawURL : GoString) :
    stringsSplit rawURL [47, 47] ≠ [] ∧
    (∃ last, (stringsSplit rawURL [47, 47])[(stringsSplit rawURL [47, 47]).length - 1]?
        = some last ∧
      stringsSplit last [47] ≠ [] ∧ ∃ first, (stringsSplit last [47])[0]? = some first) ∧
    (∃ d, extractDomain rawURL = some d) ∧
    (∀ e, urlParse rawURL = .error e → stringsContains rawURL [47, 47] = false →
      stringsContains rawURL [47] = false → extractDomain rawURL = some rawURL) := by
  refine ⟨stringsSplit_ne_nil rawURL [47, 47] (by simp), ?_, extractDomain_total rawURL, ?_⟩
  · obtain ⟨x, hx⟩ := last_index_in_range _ (stringsSplit_ne_nil rawURL [47, 47] (by simp))
    exact ⟨x, hx, stringsSplit_ne_nil x [47] (by simp),
      first_index_in_range _ (stringsSplit_ne_nil x [47] (by simp))⟩
  · intro e he h2 h1
    unfold extractDomain
    rw [he]
    simp [stringsSplit_of_not_contains rawURL [47, 47] (by simp) h2,
      stringsSplit_of_not_contains rawURL [47] (by simp) h1]

/-- Witness of C8 at the address ":foo", which url.Parse rejects (missing
protocol scheme). -/
theorem extractDomain_never_panics_witness :
    urlParse (goStr ":foo") = .error .missingProtocolScheme ∧
    extractDomain (goStr ":foo") = some (goStr ":foo") :=
  ⟨by decide, (extractDomain_never_panics (goStr ":foo")).2.2.2 .missingProtocolScheme
    (by decide) (by decide) (by decide)⟩

/-- C10, as amended: for every address on which url.Parse fails, the fallback
of extractDomain splits the address at every "//" and keeps the piece after
the last cut (the whole address when "//" does not occur), then returns the
part of that piece before its first "/"; when no "//" occurs after the first
one, this is the result of splitting at the first occurrence of "//". -/
theorem fallback_last_segment (rawURL : GoString) (e : ParseError)
    (h : urlParse rawURL = .error e) :
    (∃ last, (stringsSplit rawURL [47, 47]).getLast? = some last ∧
      stringsContains last [47, 47] = false ∧
      (last = rawURL ∨ ∃ pre, rawURL = pre ++ [47, 47] ++ last) ∧
      extractDomain rawURL = some (stringsCut last [47]).1) ∧
    (stringsContains (afterFirstDoubleSlash rawURL) [47, 47] = false →
      extractDomain rawURL = some (fallbackFirstOccurrence rawURL)) := by
  refine ⟨extractDomain_of_error rawURL e h, ?_⟩
  intro hno
  unfold extractDomain
  rw [h]
  simp only
  rw [← List.getLast?_eq_getElem?]
  cases hi : stringsIndex rawURL [47, 47] with
  | none =>
    have ha : afterFirstDoubleSlash rawURL = rawURL := by
      simp [afterFirstDoubleSlash, stringsCut, hi]
    rw [stringsSplit_of_index_none rawURL [47, 47] (by simp) hi]
    simp only [List.getLast?_singleton, fallbackFirstOccurrence, ha]
    exact stringsSplit_head rawURL [47] (by simp)
  | some m =>
    have ha : afterFirstDoubleSlash rawURL = rawURL.drop (m + 2) := by
      simp [afterFirstDoubleSlash, stringsCut, hi]
    rw [ha] at hno
    have hnone : stringsIndex (rawURL.drop (m + 2)) [47, 47] = none := by
      simpa [stringsContains] using hno
    rw [stringsSplit_of_index_some rawURL [47, 47] (by simp) m hi]
    simp only [List.length_cons, List.length_nil, Nat.zero_add, Nat.reduceAdd]
    rw [stringsSplit_of_index_none _ [47, 47] (by simp) hnone]
    simp only [List.getLast?_cons_cons, List.getLast?_singleton, fallbackFirstOccurrence, ha]
    exact stringsSplit_head _ [47] (by simp)

/-- Witness of C10 at "http://a b/c", which url.Parse rejects (a space in the
host) and which contains "//" once. -/
theorem fallback_last_segment_witness :
    urlParse (goStr "http://a b/c") = .error .invalidHostError ∧
    extractDomain (goStr "http://a b/c") = some (fallbackFirstOccurrence (goStr "http://a b/c")) ∧
    fallbackFirstOccurrence (goStr "http://a b/c") = goStr "a b" :=
  ⟨by decide,
    (fallback_last_segment (goStr "http://a b/c") .invalidHostError (by decide)).2 (by decide),
    by decide⟩

/-- C10, counterexample: "http://a b//c/d" does not parse (a space in the
host) and contains "//" twice; splitting at the first "//" and cutting at the
next "/" gives "a b", and extractDomain returns "c", cut from the piece after
the last "//". -/
theorem fallback_not_first_occurrence :
    urlParse (goStr "http://a b//c/d") = .error .invalidHostError ∧
    fallbackFirstOccurrence (goStr "http://a b//c/d") = goStr "a b" ∧
    extractDomain (goStr "http://a b//c/d") = some (goStr "c") ∧
    extractDomain (goStr "http://a b//c/d")
      ≠ some (fallbackFirstOccurrence (goStr "http://a b//c/d")) := by
  decide

theorem stringsIndex_slash_append (host path : GoString) (h : 47 ∉ host) :
    stringsIndex (host ++ 47 :: path) [47] = some host.length := by
  induction host with
  | nil => simp [stringsIndex, hasPrefix]
  | cons c cs ih =>
    have hc : c ≠ 47 := fun hc => h (hc ▸ List.mem_cons_self _ _)
    have hcs : 47 ∉ cs := fun hm => h (List.mem_cons_of_mem _ hm)
    simp [stringsIndex, hasPrefix, hc, Ne.symm hc, ih hcs]

/-- C7, as amended: for a scheme-less address host/path, with no "/" in the
host and no "//" anywhere in the address, that url.Parse rejects,
extractDomain returns the host; "example.com/path" itself parses without
error, as a path with an empty host, and extractDomain returns the empty
string for it. -/
theorem extractDomain_schemeless (host path : GoString) (e : ParseError)
    (hparse : urlParse (host ++ 47 :: path) = .error e) (hhost : 47 ∉ host)
    (hno : stringsContains (host ++ 47 :: path) [47, 47] = false) :
    extractDomain (host ++ 47 :: path) = some host ∧
    urlParse (goStr "example.com/path") = .ok { Path := goStr "example.com/path" } ∧
    extractDomain (goStr "example.com/path") = some [] := by
  refine ⟨?_, by decide, by decide⟩
  unfold extractDomain
  rw [hparse]
  simp only
  rw [stringsSplit_of_not_contains _ [47, 47] (by simp) hno]
  simp only [List.length_singleton, Nat.sub_self, List.getElem?_cons_zero]
  rw [stringsSplit_head _ [47] (by simp)]
  simp [stringsCut, stringsIndex_slash_append host path hhost]

/-- Witness of C7 at "example.com/%zz", which url.Parse rejects (an invalid
escape in the path). -/
theorem extractDomain_schemeless_witness :
    urlParse (goStr "example.com" ++ 47 :: goStr "%zz") = .error .escapeError ∧
    extractDomain (goStr "example.com" ++ 47 :: goStr "%zz") = some (goStr "example.com") :=
  ⟨by decide,
    (extractDomain_schemeless (goStr "example.com") (goStr "%zz") .escapeError
      (by decide) (by decide) (by decide)).1⟩

/-- C7, counterexample: url.Parse accepts "example.com/path", so the fallback
does not run; the host of the parsed URL is empty and extractDomain returns
the empty string, not "example.com".  And where the fallback runs, it returns
the host only if no "//" follows: url.Parse rejects "example.com/a//b%zz" (an
invalid escape) and extractDomain returns "b%zz" for it. -/
theorem extractDomain_schemeless_not_host :
    (∃ u, urlParse (goStr "example.com/path") = .ok u ∧ u.Host = []) ∧
    extractDomain (goStr "example.com/path") = some (goStr "") ∧
    extractDomain (goStr "example.com/path") ≠ some (goStr "example.com") ∧
    urlParse (goStr "example.com/a//b%zz") = .error .escapeError ∧
    extractDomain (goStr "example.com/a//b%zz") = some (goStr "b%zz") := by
  refine ⟨⟨{ Path := goStr "example.com/path" }, by decide, rfl⟩, by decide, by decide,
    by decide, by decide⟩

/-! ## Parsing an address of the form scheme://host:port/path -/

theorem stringsIndex_single_none (s : GoString) (c : Nat) (h : c ∉ s) :
    stringsIndex s [c] = none := by
  induction s with
  | nil => simp [stringsIndex, hasPrefix]
  | cons a t ih =>
    have ha : a ≠ c := fun hc => h (hc ▸ List.mem_cons_self _ _)
    have ht : c ∉ t := fun hm => h (List.mem_cons_of_mem _ hm)
    simp [stringsIndex, hasPrefix, ha, Ne.symm ha, ih ht]

theorem stringsIndex_single_append (pre post : GoString) (c : Nat) (h : c ∉ pre) :
    stringsIndex (pre ++ c :: post) [c] = some pre.length := by
  induction pre with
  | nil => simp [stringsIndex, hasPrefix]
  | cons a t ih =>
    have ha : a ≠ c := fun hc => h (hc ▸ List.mem_cons_self _ _)
    have ht : c ∉ t := fun hm => h (List.mem_cons_of_mem _ hm)
    simp [stringsIndex, hasPrefix, ha, Ne.symm ha, ih ht]

theorem lastIndexGo_single_none (c : Nat) (s : GoString) (i : Nat) (best : Option Nat)
    (h : c ∉ s) : lastIndexGo [c] s i best = best := by
  induction s generalizing i best with
  | nil => simp [lastIndexGo, hasPrefix]
  | cons a t ih =>
    have ha : a ≠ c := fun hc => h (hc ▸ List.mem_cons_self _ _)
    have ht : c ∉ t := fun hm => h (List.mem_cons_of_mem _ hm)
    simp [lastIndexGo, hasPrefix, ha, Ne.symm ha, ih _ _ ht]

theorem lastIndexGo_single_append (c : Nat) (pre post : GoString) (i : Nat)
    (best : Option Nat) (h : c ∉ post) :
    lastIndexGo [c] (pre ++ c :: post) i best = some (i + pre.length) := by
  induction pre generalizing i best with
  | nil => simp [lastIndexGo, hasPrefix, lastIndexGo_single_none c post _ _ h]
  | cons a t ih =>
    have e : a :: t ++ c :: post = a :: (t ++ c :: post) := rfl
    rw [e, lastIndexGo, ih, List.length_cons]
    congr 1
    omega

theorem stringsLastIndex_single_none (c : Nat) (s : GoString) (h : c ∉ s) :
    stringsLastIndex s [c] = none :=
  lastIndexGo_single_none c s 0 none h

theorem stringsLastIndex_single_append (c : Nat) (pre post : GoString) (h : c ∉ post) :
    stringsLastIndex (pre ++ c :: post) [c] = some pre.length := by
  simp [stringsLastIndex, lastIndexGo_single_append c pre post 0 none h]

theorem unescapeCheck_plain (mode : Encoding) (hmode : mode ≠ .encodeQueryComponent)
    (s : GoString)
    (h : ∀ b ∈ s, b ≠ 37 ∧
      ((mode = .encodeHost ∨ mode = .encodeZone) → shouldEscape b .encodeHost = false)) :
    unescapeCheck mode s = .ok false := by
  induction s with
  | nil => rfl
  | cons c cs ih =>
    have hc := h c (List.mem_cons_self _ _)
    have hcs := ih (fun b hb => h b (List.mem_cons_of_mem _ hb))
    unfold unescapeCheck
    rw [if_neg hc.1]
    by_cases h43 : c = 43
    · rw [if_pos h43, hcs]
      simp [Except.map, hmode]
    · rw [if_neg h43]
      by_cases hm : mode = .encodeHost ∨ mode = .encodeZone
      · rw [if_neg (by simp [hc.2 hm]), hcs]
      · rw [if_neg (by simp [hm]), hcs]

theorem unescape_plain (mode : Encoding) (hmode : mode ≠ .encodeQueryComponent)
    (s : GoString)
    (h : ∀ b ∈ s, b ≠ 37 ∧
      ((mode = .encodeHost ∨ mode = .encodeZone) → shouldEscape b .encodeHost = false)) :
    unescape s mode = .ok s := by
  simp [unescape, unescapeCheck_plain mode hmode s h]

theorem shouldEscape_hostByte (b : Nat) (h : hostByte b = true ∨ b = 58) :
    shouldEscape b .encodeHost = false := by
  unfold shouldEscape
  by_cases h1 : (isAlpha b || isDigit b) = true
  · simp [h1]
  · rw [if_neg h1]
    have h2 : b = 45 ∨ b = 46 ∨ b = 58 := by
      rcases h with h | h
      · simp only [hostByte, Bool.or_eq_true, beq_iff_eq] at h
        simp only [Bool.or_eq_true] at h1
        tauto
      · exact Or.inr (Or.inr h)
    rcases h2 with rfl | rfl | rfl <;> simp

theorem hostByte_ne (b : Nat) (h : hostByte b = true ∨ b = 58) :
    b ≠ 37 ∧ b ≠ 47 ∧ b ≠ 64 ∧ b ≠ 91 ∧ b ≠ 35 ∧ b ≠ 63 ∧ pathByte b = true := by
  rcases h with h | rfl
  · simp only [hostByte, isAlpha, isDigit, Bool.or_eq_true, Bool.and_eq_true, decide_eq_true_eq,
      beq_iff_eq] at h
    simp only [pathByte, Bool.not_eq_true', Bool.or_eq_false_iff, decide_eq_false_iff_not,
      beq_eq_false_iff_ne]
    omega
  · decide

theorem getSchemeGo_letters (rawURL rest : GoString) (todo pre : GoString)
    (hraw : rawURL = pre ++ todo ++ 58 :: rest) (hletters : ∀ b ∈ todo, isAlpha b = true)
    (hne : pre ++ todo ≠ []) :
    getSchemeGo rawURL (todo ++ 58 :: rest) pre.length = .ok (pre ++ todo, rest) := by
  induction todo generalizing pre with
  | nil =>
    have hpre : pre ≠ [] := by simpa using hne
    have hlen : pre.length ≠ 0 := fun h => hpre (List.length_eq_zero.mp h)
    simp only [List.append_nil] at hraw ⊢
    simp only [List.nil_append, getSchemeGo]
    simp [isAlpha, isDigit, hlen, hraw]
  | cons c t ih =>
    have hc := hletters c (List.mem_cons_self _ _)
    have := ih (pre ++ [c]) (by simp [hraw]) (fun b hb => hletters b (List.mem_cons_of_mem _ hb))
      (by simp)
    simp only [List.cons_append, getSchemeGo, hc, if_true]
    simpa using this

theorem hasPrefix_single_false (s : GoString) (c : Nat) (h : c ∉ s) :
    hasPrefix s [c] = false := by
  cases s with
  | nil => simp [hasPrefix]
  | cons a t =>
    have ha : a ≠ c := fun hc => h (hc ▸ List.mem_cons_self _ _)
    simp [hasPrefix, List.isPrefixOf, ha, Ne.symm ha]

theorem authority_bytes (host portPart : GoString)
    (hhost : ∀ b ∈ host, hostByte b = true)
    (hport : portPart = [] ∨
      ∃ digits, portPart = 58 :: digits ∧ ∀ b ∈ digits, isDigit b = true) :
    ∀ b ∈ host ++ portPart, hostByte b = true ∨ b = 58 := by
  intro b hb
  rcases List.mem_append.mp hb with h | h
  · exact Or.inl (hhost b h)
  · rcases hport with rfl | ⟨digits, rfl, hd⟩
    · cases h
    · rcases List.mem_cons.mp h with rfl | h
      · exact Or.inr rfl
      · exact Or.inl (by simp [hostByte, hd b h])

theorem colon_not_mem_host (host : GoString) (hhost : ∀ b ∈ host, hostByte b = true) :
    58 ∉ host := by
  intro h
  have := hhost 58 h
  revert this
  decide

theorem colon_not_mem_digits (digits : GoString) (hd : ∀ b ∈ digits, isDigit b = true) :
    58 ∉ digits := by
  intro h
  have := hd 58 h
  revert this
  decide

theorem validOptionalPort_digits (digits : GoString) (hd : ∀ b ∈ digits, isDigit b = true) :
    validOptionalPort (58 :: digits) = true := by
  simp only [validOptionalPort, beq_self_eq_true, Bool.true_and, List.all_eq_true]
  intro b hb
  have := hd b hb
  simp only [isDigit, Bool.and_eq_true, decide_eq_true_eq] at this
  simp only [Bool.not_eq_true', Bool.or_eq_false_iff, decide_eq_false_iff_not]
  omega

theorem parseHost_standard (host portPart : GoString)
    (hhost : ∀ b ∈ host, hostByte b = true)
    (hport : portPart = [] ∨
      ∃ digits, portPart = 58 :: digits ∧ ∀ b ∈ digits, isDigit b = true) :
    parseHost (host ++ portPart) = .ok (host ++ portPart) := by
  have hauth := authority_bytes host portPart hhost hport
  have h91 : 91 ∉ host ++ portPart := fun h => (hostByte_ne 91 (hauth 91 h)).2.2.2.1 rfl
  have hun : unescape (host ++ portPart) .encodeHost = .ok (host ++ portPart) :=
    unescape_plain .encodeHost (by decide) _
      (fun b hb => ⟨(hostByte_ne b (hauth b hb)).1, fun _ => shouldEscape_hostByte b (hauth b hb)⟩)
  unfold parseHost
  rw [hasPrefix_single_false _ 91 h91]
  rcases hport with rfl | ⟨digits, rfl, hd⟩
  · have h58 : 58 ∉ host ++ [] := by simpa using colon_not_mem_host host hhost
    simp only [Bool.false_eq_true, if_false]
    rw [stringsLastIndex_single_none 58 _ h58]
    exact hun
  · simp only [Bool.false_eq_true, if_false]
    rw [stringsLastIndex_single_append 58 host digits (colon_not_mem_digits digits hd)]
    simp only [List.drop_left, validOptionalPort_digits digits hd, Bool.not_true,
      Bool.false_eq_true, if_false]
    exact hun

theorem splitHostPort_standard (host portPart : GoString)
    (hhost : ∀ b ∈ host, hostByte b = true)
    (hport : portPart = [] ∨
      ∃ digits, portPart = 58 :: digits ∧ ∀ b ∈ digits, isDigit b = true) :
    (splitHostPort (host ++ portPart)).1 = host := by
  have h91 : 91 ∉ host := fun h => (hostByte_ne 91 (Or.inl (hhost 91 h))).2.2.2.1 rfl
  unfold splitHostPort
  rcases hport with rfl | ⟨digits, rfl, hd⟩
  · have h58 : 58 ∉ host ++ [] := by simpa using colon_not_mem_host host hhost
    rw [stringsLastIndex_single_none 58 _ h58]
    simp [hasPrefix_single_false host 91 h91]
  · rw [stringsLastIndex_single_append 58 host digits (colon_not_mem_digits digits hd)]
    simp [validOptionalPort_digits digits hd, hasPrefix_single_false host 91 h91]

theorem parseAuthority_standard (host portPart : GoString)
    (hhost : ∀ b ∈ host, hostByte b = true)
    (hport : portPart = [] ∨
      ∃ digits, portPart = 58 :: digits ∧ ∀ b ∈ digits, isDigit b = true) :
    parseAuthority (host ++ portPart) = .ok (none, host ++ portPart) := by
  have hauth := authority_bytes host portPart hhost hport
  have h64 : 64 ∉ host ++ portPart := fun h => (hostByte_ne 64 (hauth 64 h)).2.2.1 rfl
  unfold parseAuthority
  simp only [stringsLastIndex_single_none 64 _ h64, parseHost_standard host portPart hhost hport]

theorem pathByte_of_part (pathPart : GoString)
    (hpath : pathPart = [] ∨ ∃ p, pathPart = 47 :: p ∧ ∀ b ∈ p, pathByte b = true) :
    ∀ b ∈ pathPart, pathByte b = true := by
  intro b hb
  rcases hpath with rfl | ⟨p, rfl, hp⟩
  · cases hb
  · rcases List.mem_cons.mp hb with rfl | h
    · decide
    · exact hp b h

theorem pathByte_ne (b : Nat) (h : pathByte b = true) :
    b ≠ 35 ∧ b ≠ 63 ∧ b ≠ 37 ∧ ¬ (b < 0x20 || b == 0x7f) = true := by
  simp only [pathByte, Bool.not_eq_true', Bool.or_eq_false_iff, decide_eq_false_iff_not,
    beq_eq_false_iff_ne] at h
  simp only [Bool.or_eq_true, decide_eq_true_eq, beq_iff_eq]
  omega

theorem urlParse_core (scheme auth pathPart : GoString)
    (hscheme : scheme ≠ []) (hletters : ∀ b ∈ scheme, isAlpha b = true)
    (hauth : ∀ b ∈ auth, hostByte b = true ∨ b = 58)
    (hpa : parseAuthority auth = .ok (none, auth))
    (hpath : pathPart = [] ∨ ∃ p, pathPart = 47 :: p ∧ ∀ b ∈ p, pathByte b = true) :
    urlParse (scheme ++ 58 :: 47 :: 47 :: (auth ++ pathPart)) =
      .ok { Scheme := stringsToLower scheme, Host := auth, Path := pathPart } := by
  have hpb := pathByte_of_part pathPart hpath
  have hrest : ∀ b ∈ (47 :: 47 :: (auth ++ pathPart) : GoString), pathByte b = true := by
    intro b hb
    simp only [List.mem_cons, List.mem_append] at hb
    rcases hb with rfl | rfl | h | h
    · decide
    · decide
    · exact (hostByte_ne b (hauth b h)).2.2.2.2.2.2
    · exact hpb b h
  have hplain : ∀ b ∈ scheme ++ 58 :: 47 :: 47 :: (auth ++ pathPart),
      pathByte b = true := by
    intro b hb
    rcases List.mem_append.mp hb with h | h
    · have := hletters b h
      simp only [isAlpha, Bool.or_eq_true, Bool.and_eq_true, decide_eq_true_eq] at this
      simp only [pathByte, Bool.not_eq_true', Bool.or_eq_false_iff, decide_eq_false_iff_not,
        beq_eq_false_iff_ne]
      omega
    · rcases List.mem_cons.mp h with rfl | h
      · decide
      · exact hrest b h
  have h35 : 35 ∉ scheme ++ 58 :: 47 :: 47 :: (auth ++ pathPart) :=
    fun h => (pathByte_ne 35 (hplain 35 h)).1 rfl
  have h63 : 63 ∉ (47 :: 47 :: (auth ++ pathPart) : GoString) :=
    fun h => (pathByte_ne 63 (hrest 63 h)).2.1 rfl
  have hctl : stringContainsCTLByte
      (scheme ++ 58 :: 47 :: 47 :: (auth ++ pathPart)) = false := by
    unfold stringContainsCTLByte
    rw [List.any_eq_false]
    intro b hb
    exact (pathByte_ne b (hplain b hb)).2.2.2
  have hstar : scheme ++ 58 :: 47 :: 47 :: (auth ++ pathPart) ≠ [42] := by
    intro h
    have := congrArg List.length h
    simp only [List.length_append, List.length_cons, List.length_nil] at this
    omega
  have hgs : getScheme (scheme ++ 58 :: 47 :: 47 :: (auth ++ pathPart))
      = .ok (scheme, 47 :: 47 :: (auth ++ pathPart)) := by
    have := getSchemeGo_letters (scheme ++ 58 :: 47 :: 47 :: (auth ++ pathPart))
      (47 :: 47 :: (auth ++ pathPart)) scheme [] (by simp) hletters
      (by simpa using hscheme)
    simpa [getScheme] using this
  have hlow : stringsToLower scheme ≠ [] := by simpa [stringsToLower] using hscheme
  have hidx63 := stringsIndex_single_none _ 63 h63
  have hcount : stringsCount (47 :: 47 :: (auth ++ pathPart)) [63] = 0 := by
    simp only [stringsCount, List.cons_ne_nil, if_false, reduceCtorEq]
    rw [countGo_eq [63] (by simp), hidx63]
  have hcut63 : stringsCut (47 :: 47 :: (auth ++ pathPart)) [63]
      = (47 :: 47 :: (auth ++ pathPart), [], false) := by
    simp only [stringsCut, hidx63]
  have h47 : 47 ∉ auth := fun h => (hostByte_ne 47 (hauth 47 h)).2.1 rfl
  have hun : unescape pathPart .encodePath = .ok pathPart :=
    unescape_plain .encodePath (by decide) _
      (fun b hb => ⟨(pathByte_ne b (hpb b hb)).2.2.1, fun h => by simp at h⟩)
  have hidx : (match stringsIndex (auth ++ pathPart) [47] with
      | some i => (auth ++ pathPart).take i
      | none => auth ++ pathPart) = auth ∧
      (match stringsIndex (auth ++ pathPart) [47] with
      | some i => (auth ++ pathPart).drop i
      | none => []) = pathPart := by
    rcases hpath with rfl | ⟨p, rfl, hp⟩
    · rw [List.append_nil, stringsIndex_single_none _ 47 h47]
      exact ⟨rfl, rfl⟩
    · rw [stringsIndex_single_append _ _ 47 h47]
      exact ⟨List.take_left _ _, List.drop_left _ _⟩
  have hp1 : hasPrefix (47 :: 47 :: (auth ++ pathPart)) [47] = true := by
    simp [hasPrefix, List.isPrefixOf]
  have hp2 : hasPrefix (47 :: 47 :: (auth ++ pathPart)) [47, 47] = true := by
    simp [hasPrefix, List.isPrefixOf]
  unfold urlParse
  simp only [stringsCut, stringsIndex_single_none _ 35 h35]
  unfold parse
  rw [if_neg (by rw [hctl]; simp), if_neg (by simp), if_neg hstar]
  simp only [hgs, hcount, hcut63]
  simp only [List.drop_succ_cons, List.drop_zero, setPath]
  simp [hlow, hp1, hp2, hidx.1, hidx.2, hpa, hun]

/-- The result of url.Parse on scheme://host, with an optional :port and an
optional /path. -/
theorem urlParse_standard (scheme host portPart pathPart : GoString)
    (hscheme : scheme ≠ []) (hletters : ∀ b ∈ scheme, isAlpha b = true)
    (hhost : ∀ b ∈ host, hostByte b = true)
    (hport : portPart = [] ∨
      ∃ digits, portPart = 58 :: digits ∧ ∀ b ∈ digits, isDigit b = true)
    (hpath : pathPart = [] ∨ ∃ p, pathPart = 47 :: p ∧ ∀ b ∈ p, pathByte b = true) :
    urlParse (scheme ++ [58, 47, 47] ++ host ++ portPart ++ pathPart) =
      .ok { Scheme := stringsToLower scheme, Host := host ++ portPart, Path := pathPart } := by
  have hraw : scheme ++ [58, 47, 47] ++ host ++ portPart ++ pathPart
      = scheme ++ 58 :: 47 :: 47 :: ((host ++ portPart) ++ pathPart) := by
    simp [List.append_assoc]
  rw [hraw]
  exact urlParse_core scheme (host ++ portPart) pathPart hscheme hletters
    (authority_bytes host portPart hhost hport)
    (parseAuthority_standard host portPart hhost hport) hpath

/-! ## The host component of a parsed address -/

theorem exists_first_occurrence (c : Nat) (s : GoString) (h : c ∈ s) :
    ∃ pre post, s = pre ++ c :: post ∧ c ∉ pre := by
  induction s with
  | nil => simp at h
  | cons a t ih =>
    by_cases ha : a = c
    · exact ⟨[], t, by simp [ha], by simp⟩
    · have ht : c ∈ t := by
        rcases List.mem_cons.mp h with h1 | h1
        · exact absurd h1.symm ha
        · exact h1
      obtain ⟨pre, post, hs, hpre⟩ := ih ht
      refine ⟨a :: pre, post, by simp [hs], ?_⟩
      simp only [List.mem_cons, not_or]
      exact ⟨fun hc => ha hc.symm, hpre⟩

theorem exists_last_occurrence (c : Nat) (s : GoString) (h : c ∈ s) :
    ∃ pre post, s = pre ++ c :: post ∧ c ∉ post := by
  induction s with
  | nil => simp at h
  | cons a t ih =>
    by_cases ht : c ∈ t
    · obtain ⟨pre, post, hs, hpost⟩ := ih ht
      exact ⟨a :: pre, post, by simp [hs], hpost⟩
    · have ha : a = c := by
        rcases List.mem_cons.mp h with h1 | h1
        · exact h1.symm
        · exact absurd h1 ht
      exact ⟨[], t, by simp [ha], ht⟩

theorem beforeFirst_of_not_mem (c : Nat) (s : GoString) (h : c ∉ s) : beforeFirst c s = s := by
  unfold beforeFirst
  rw [List.takeWhile_eq_self_iff]
  intro b hb
  have : b ≠ c := fun hbc => h (hbc ▸ hb)
  simpa using this

theorem beforeFirst_append (c : Nat) (pre post : GoString) (h : c ∉ pre) :
    beforeFirst c (pre ++ c :: post) = pre := by
  unfold beforeFirst
  induction pre with
  | nil => simp [List.takeWhile]
  | cons a t ih =>
    have ha : a ≠ c := fun hc => h (hc ▸ List.mem_cons_self _ _)
    have ht : c ∉ t := fun hm => h (List.mem_cons_of_mem _ hm)
    have hb : (a != c) = true := by simpa using ha
    simp [List.takeWhile_cons, hb, ih ht]

theorem afterLast_of_not_mem (c : Nat) (s : GoString) (h : c ∉ s) : afterLast c s = s := by
  have h1 : c ∉ s.reverse := by simpa using h
  have := beforeFirst_of_not_mem c s.reverse h1
  unfold beforeFirst at this
  simp [afterLast, this]

theorem afterLast_append (c : Nat) (pre post : GoString) (h : c ∉ post) :
    afterLast c (pre ++ c :: post) = post := by
  have h1 : c ∉ post.reverse := by simpa using h
  have := beforeFirst_append c post.reverse pre.reverse h1
  unfold beforeFirst at this
  have e : (pre ++ c :: post).reverse = post.reverse ++ c :: pre.reverse := by simp
  simp [afterLast, e, this]

/-- The text before the position found by strings.Index is the text before
the first occurrence. -/
theorem stringsIndex_take (c : Nat) (s : GoString) :
    (match stringsIndex s [c] with
      | some i => s.take i
      | none => s) = beforeFirst c s := by
  by_cases h : c ∈ s
  · obtain ⟨pre, post, rfl, hpre⟩ := exists_first_occurrence c s h
    rw [stringsIndex_single_append pre post c hpre, beforeFirst_append c pre post hpre]
    simp
  · rw [stringsIndex_single_none s c h, beforeFirst_of_not_mem c s h]

theorem stringsCut_fst (c : Nat) (s : GoString) : (stringsCut s [c]).1 = beforeFirst c s := by
  rw [← stringsIndex_take]
  unfold stringsCut
  cases stringsIndex s [c] <;> rfl

theorem stringsLastIndex_drop (c : Nat) (s : GoString) :
    (match stringsLastIndex s [c] with
      | none => s
      | some i => s.drop (i + 1)) = afterLast c s := by
  by_cases h : c ∈ s
  · obtain ⟨pre, post, rfl, hpost⟩ := exists_last_occurrence c s h
    rw [stringsLastIndex_single_append c pre post hpost, afterLast_append c pre post hpost]
    simp
  · rw [stringsLastIndex_single_none c s h, afterLast_of_not_mem c s h]

theorem countGo_single (c : Nat) (s : GoString) : countGo [c] s 0 = s.count c := by
  induction s with
  | nil => simp [countGo]
  | cons a t ih =>
    by_cases ha : a = c
    · subst ha
      simp [countGo, hasPrefix, ih, Nat.add_comm]
    · simp [countGo, hasPrefix, ih, ha, Ne.symm ha, List.count_cons]

/-- A single trailing "?" (the ForceQuery case of url.Parse) is cut like any
query. -/
theorem forceQuery_take (rest : GoString) (hs : hasSuffix rest [63] = true)
    (hc : stringsCount rest [63] = 1) : rest.take (rest.length - 1) = beforeFirst 63 rest := by
  obtain ⟨pre, hpre⟩ := List.isSuffixOf_iff_suffix.mp hs
  subst hpre
  have hcount : (pre ++ [63]).count 63 = 1 := by
    rw [← countGo_single]
    simpa [stringsCount] using hc
  have hnot : 63 ∉ pre := by
    rw [← List.count_eq_zero]
    simpa using hcount
  rw [beforeFirst_append 63 pre [] hnot]
  simp

theorem beforeFirst_append_of_not_mem (c : Nat) (pre rest : GoString) (h : c ∉ pre) :
    beforeFirst c (pre ++ rest) = pre ++ beforeFirst c rest := by
  unfold beforeFirst
  apply List.takeWhile_append_of_pos
  intro b hb
  have : b ≠ c := fun hbc => h (hbc ▸ hb)
  simpa using this

theorem beforeFirst_cons_ne (c a : Nat) (rest : GoString) (h : a ≠ c) :
    beforeFirst c (a :: rest) = a :: beforeFirst c rest := by
  have hb : (a != c) = true := by simpa using h
  simp [beforeFirst, List.takeWhile_cons, hb]

theorem isSchemeName_append_bad (pre post : GoString) (c : Nat)
    (hc : (isAlpha c || isDigit c || c == 43 || c == 45 || c == 46) = false) :
    isSchemeName (pre ++ c :: post) = false := by
  cases pre with
  | nil =>
    have : isAlpha c = false := by
      simp only [Bool.or_eq_false_iff] at hc
      exact hc.1.1.1.1
    simp [isSchemeName, this]
  | cons p ps =>
    simp only [List.cons_append, isSchemeName, List.all_append, List.all_cons, hc,
      Bool.false_and, Bool.and_false]

theorem isSchemeName_snoc (pre : GoString) (c : Nat)
    (hpre : pre = [] ∨ isSchemeName pre = true)
    (hc : (isAlpha c || isDigit c || c == 43 || c == 45 || c == 46) = true)
    (hfirst : pre = [] → isAlpha c = true) :
    isSchemeName (pre ++ [c]) = true := by
  cases pre with
  | nil => simp [isSchemeName, hfirst rfl]
  | cons p ps =>
    rcases hpre with h | h
    · cases h
    · simp only [isSchemeName, Bool.and_eq_true] at h
      simp only [List.cons_append, isSchemeName, List.all_append, List.all_cons, List.all_nil,
        Bool.and_true, Bool.and_eq_true]
      exact ⟨h.1, h.2, hc⟩

theorem colon_not_mem_of_isSchemeName (pre : GoString)
    (hpre : pre = [] ∨ isSchemeName pre = true) : 58 ∉ pre := by
  cases pre with
  | nil => simp
  | cons p ps =>
    rcases hpre with h | h
    · cases h
    · simp only [isSchemeName, Bool.and_eq_true, List.all_eq_true] at h
      intro hm
      rcases List.mem_cons.mp hm with h1 | h1
      · have := h.1
        rw [← h1] at this
        revert this
        decide
      · have := h.2 58 h1
        revert this
        decide

/-- What getScheme leaves after the scheme is the address without its scheme
name in the sense of RFC 3986. -/
theorem getSchemeGo_rest (raw : GoString) (rest pre : GoString) (hraw : raw = pre ++ rest)
    (hpre : pre = [] ∨ isSchemeName pre = true) (a b : GoString)
    (h : getSchemeGo raw rest pre.length = .ok (a, b)) : b = withoutScheme raw := by
  induction rest generalizing pre with
  | nil =>
    simp only [getSchemeGo, Except.ok.injEq, Prod.mk.injEq] at h
    have hcolon := colon_not_mem_of_isSchemeName pre hpre
    simp only [List.append_nil] at hraw
    subst hraw
    rw [← h.2]
    simp [withoutScheme, beforeFirst_of_not_mem 58 raw hcolon]
  | cons c cs ih =>
    have hcolon := colon_not_mem_of_isSchemeName pre hpre
    have hstep : raw = (pre ++ [c]) ++ cs := by simp [hraw]
    have hlen : (pre ++ [c]).length = pre.length + 1 := by simp
    unfold getSchemeGo at h
    by_cases halpha : isAlpha c = true
    · rw [if_pos halpha, ← hlen] at h
      exact ih (pre ++ [c]) hstep
        (Or.inr (isSchemeName_snoc pre c hpre (by simp [halpha]) (fun _ => halpha))) h
    · rw [if_neg halpha] at h
      have halpha : isAlpha c = false := by simpa using halpha
      by_cases hother : (isDigit c || c == 43 || c == 45 || c == 46) = true
      · rw [if_pos hother] at h
        have hc58 : c ≠ 58 := by
          intro hc
          subst hc
          revert hother
          decide
        by_cases hzero : pre.length = 0
        · have hnil : pre = [] := List.length_eq_zero.mp hzero
          subst hnil
          simp only [List.length_nil, beq_self_eq_true, if_true, Except.ok.injEq,
            Prod.mk.injEq] at h
          simp only [List.nil_append] at hraw
          rw [← h.2, hraw]
          simp [withoutScheme, beforeFirst_cons_ne 58 c cs hc58, isSchemeName, halpha]
        · have hz : (pre.length == 0) = false := by simpa using hzero
          rw [hz] at h
          simp only [Bool.false_eq_true, if_false] at h
          rw [← hlen] at h
          have hne : pre ≠ [] := fun hp => hzero (by simp [hp])
          refine ih (pre ++ [c]) hstep (Or.inr (isSchemeName_snoc pre c hpre ?_ ?_)) h
          · simp only [Bool.or_eq_true] at hother ⊢
            tauto
          · intro hp
            exact absurd hp hne
      · rw [if_neg hother] at h
        have hother : (isDigit c || c == 43 || c == 45 || c == 46) = false := by
          simpa using hother
        by_cases hc58 : c = 58
        · subst hc58
          simp only [beq_self_eq_true, if_true] at h
          by_cases hzero : pre.length = 0
          · simp [hzero] at h
          · have hz : (pre.length == 0) = false := by simpa using hzero
            rw [hz] at h
            simp only [Bool.false_eq_true, if_false, Except.ok.injEq, Prod.mk.injEq] at h
            have hne : pre ≠ [] := fun hp => hzero (by simp [hp])
            have hname : isSchemeName pre = true := by
              rcases hpre with hp | hp
              · exact absurd hp hne
              · exact hp
            rw [← h.2, hraw]
            simp [withoutScheme, beforeFirst_append 58 pre cs hcolon, hname]
        · have hb : (c == 58) = false := by simpa using hc58
          rw [hb] at h
          simp only [Bool.false_eq_true, if_false, Except.ok.injEq, Prod.mk.injEq] at h
          have hbad : (isAlpha c || isDigit c || c == 43 || c == 45 || c == 46) = false := by
            simp only [Bool.or_eq_false_iff] at hother ⊢
            exact ⟨⟨⟨⟨halpha, hother.1.1.1⟩, hother.1.1.2⟩, hother.1.2⟩, hother.2⟩
          rw [← h.2, hraw]
          have hbf : beforeFirst 58 (pre ++ c :: cs) = pre ++ c :: beforeFirst 58 cs := by
            rw [beforeFirst_append_of_not_mem 58 pre (c :: cs) hcolon,
              beforeFirst_cons_ne 58 c cs hc58]
          simp [withoutScheme, hbf, isSchemeName_append_bad pre (beforeFirst 58 cs) c hbad]

theorem getScheme_rest (raw a b : GoString) (h : getScheme raw = .ok (a, b)) :
    b = withoutScheme raw :=
  getSchemeGo_rest raw raw [] rfl (Or.inl rfl) a b h

theorem unhex_eq_hexValue (c : Nat) : unhex c = hexValue c := by
  unfold unhex hexValue isDigit
  by_cases h1 : 48 ≤ c ∧ c ≤ 57
  · simp [h1]
  · have h1b : (decide (48 ≤ c) && decide (c ≤ 57)) = false := by
      simpa using h1
    rw [if_neg h1, h1b]
    simp only [Bool.false_eq_true, if_false]
    split_ifs <;> omega

theorem percentDecode_cons_ne (c : Nat) (cs : GoString) (hc : c ≠ 37) :
    percentDecode (c :: cs) = c :: percentDecode cs := by
  conv_lhs => unfold percentDecode
  simp only [if_neg hc]

theorem percentDecode_of_not_mem (s : GoString) (h : 37 ∉ s) : percentDecode s = s := by
  induction s with
  | nil => rfl
  | cons c cs ih =>
    have hc : c ≠ 37 := fun hc => h (hc ▸ List.mem_cons_self _ _)
    have hcs : 37 ∉ cs := fun hm => h (List.mem_cons_of_mem _ hm)
    rw [percentDecode_cons_ne c cs hc, ih hcs]

theorem unescapeCheck_false (mode : Encoding) (n : Nat) (s : GoString) (hn : s.length ≤ n)
    (h : unescapeCheck mode s = .ok false) : 37 ∉ s := by
  induction n generalizing s with
  | zero =>
    have : s = [] := List.length_eq_zero.mp (by omega)
    simp [this]
  | succ n ih =>
    cases s with
    | nil => simp
    | cons c cs =>
      unfold unescapeCheck at h
      by_cases hc : c = 37
      · rw [if_pos hc] at h
        exfalso
        split at h
        · split_ifs at h
          revert h
          cases unescapeCheck mode _ <;> simp [Except.map]
        · cases h
      · rw [if_neg hc] at h
        have hlen : cs.length ≤ n := by simpa using hn
        have hcs : unescapeCheck mode cs = .ok false := by
          split_ifs at h
          · revert h
            cases hu : unescapeCheck mode cs with
            | error e => simp [Except.map]
            | ok r =>
              cases r <;> simp [Except.map]
          · exact h
        simp only [List.mem_cons, not_or]
        exact ⟨fun h37 => hc h37.symm, ih cs hlen hcs⟩

/-- The second loop of unescape writes the percent-decoded text (outside of
query components, where "+" is rewritten too). -/
theorem unescapeBuild_eq (mode : Encoding) (hmode : mode ≠ .encodeQueryComponent) (n : Nat)
    (s : GoString) (hn : s.length ≤ n) (b : Bool) (h : unescapeCheck mode s = .ok b) :
    unescapeBuild mode s = percentDecode s := by
  induction n generalizing s b with
  | zero =>
    have : s = [] := List.length_eq_zero.mp (by omega)
    subst this
    rfl
  | succ n ih =>
    cases s with
    | nil => rfl
    | cons c cs =>
      unfold unescapeCheck at h
      unfold unescapeBuild percentDecode
      by_cases hc : c = 37
      · rw [if_pos hc] at h ⊢
        rw [if_pos hc]
        match cs, h, hn with
        | [], h, _ => cases h
        | [_], h, _ => cases h
        | h1 :: h2 :: rest, h, hn =>
          simp only at h ⊢
          have hlen : rest.length ≤ n := by
            simp only [List.length_cons] at hn
            omega
          have hrest : ∃ b1, unescapeCheck mode rest = .ok b1 := by
            split_ifs at h
            revert h
            cases hu : unescapeCheck mode rest with
            | error e => simp [Except.map]
            | ok r => intro _; exact ⟨r, rfl⟩
          obtain ⟨b1, hb1⟩ := hrest
          rw [ih rest hlen b1 hb1, unhex_eq_hexValue, unhex_eq_hexValue, Nat.mul_comm]
      · rw [if_neg hc] at h ⊢
        rw [if_neg hc]
        have hlen : cs.length ≤ n := by simpa using hn
        have hcs : ∃ b1, unescapeCheck mode cs = .ok b1 := by
          split_ifs at h
          · revert h
            cases hu : unescapeCheck mode cs with
            | error e => simp [Except.map]
            | ok r => intro _; exact ⟨r, rfl⟩
          · exact ⟨b, h⟩
        obtain ⟨b1, hb1⟩ := hcs
        rw [ih cs hlen b1 hb1]
        by_cases h43 : c = 43
        · simp [h43, hmode]
        · simp [h43]

theorem unescape_eq (mode : Encoding) (hmode : mode ≠ .encodeQueryComponent)
    (s r : GoString) (h : unescape s mode = .ok r) : r = percentDecode s := by
  unfold unescape at h
  split at h
  · cases h
  · rename_i hu
    simp only [Except.ok.injEq] at h
    rw [← h, percentDecode_of_not_mem s (unescapeCheck_false mode s.length s le_rfl hu)]
  · rename_i hu
    simp only [Except.ok.injEq] at h
    rw [← h]
    exact unescapeBuild_eq mode hmode s.length s le_rfl true hu

theorem unescape_check (mode : Encoding) (s r : GoString) (h : unescape s mode = .ok r) :
    ∃ b, unescapeCheck mode s = .ok b := by
  unfold unescape at h
  split at h
  · cases h
  · rename_i hu; exact ⟨_, hu⟩
  · rename_i hu; exact ⟨_, hu⟩

/-- Percent-decoding distributes over a concatenation whose first part has
complete escapes only. -/
theorem percentDecode_append (mode : Encoding) (n : Nat) (s t : GoString) (hn : s.length ≤ n)
    (b : Bool) (h : unescapeCheck mode s = .ok b) :
    percentDecode (s ++ t) = percentDecode s ++ percentDecode t := by
  induction n generalizing s b with
  | zero =>
    have : s = [] := List.length_eq_zero.mp (by omega)
    subst this
    rfl
  | succ n ih =>
    cases s with
    | nil => rfl
    | cons c cs =>
      unfold unescapeCheck at h
      by_cases hc : c = 37
      · rw [if_pos hc] at h
        match cs, h, hn with
        | [], h, _ => cases h
        | [_], h, _ => cases h
        | h1 :: h2 :: rest, h, hn =>
          simp only at h
          have hlen : rest.length ≤ n := by
            simp only [List.length_cons] at hn
            omega
          have hrest : ∃ b1, unescapeCheck mode rest = .ok b1 := by
            split_ifs at h
            revert h
            cases hu : unescapeCheck mode rest with
            | error e => simp [Except.map]
            | ok r => intro _; exact ⟨r, rfl⟩
          obtain ⟨b1, hb1⟩ := hrest
          have e : c :: h1 :: h2 :: rest ++ t = c :: h1 :: h2 :: (rest ++ t) := rfl
          rw [e, percentDecode, percentDecode, if_pos hc, if_pos hc]
          simp only [List.cons_append, ih rest hlen b1 hb1]
      · rw [if_neg hc] at h
        have hlen : cs.length ≤ n := by simpa using hn
        have hcs : ∃ b1, unescapeCheck mode cs = .ok b1 := by
          split_ifs at h
          · revert h
            cases hu : unescapeCheck mode cs with
            | error e => simp [Except.map]
            | ok r => intro _; exact ⟨r, rfl⟩
          · exact ⟨b, h⟩
        obtain ⟨b1, hb1⟩ := hcs
        have e : c :: cs ++ t = c :: (cs ++ t) := rfl
        rw [e, percentDecode_cons_ne c _ hc, percentDecode_cons_ne c _ hc, ih cs hlen b1 hb1]
        rfl

theorem stringsIndex_le (s sub : GoString) (m : Nat) (h : stringsIndex s sub = some m) :
    m ≤ s.length := by
  induction s generalizing m with
  | nil =>
    simp only [stringsIndex] at h
    split at h
    · cases h; exact le_rfl
    · cases h
  | cons c cs ih =>
    simp only [stringsIndex] at h
    split at h
    · cases h; exact Nat.zero_le _
    · cases hi : stringsIndex cs sub with
      | none => simp [hi] at h
      | some j =>
        simp only [hi, Option.map_some', Option.some.injEq] at h
        subst h
        have := ih j hi
        simp only [List.length_cons]
        omega

/-- The host that parseHost returns is the percent-decoded text. -/
theorem parseHost_eq (t host : GoString) (h : parseHost t = .ok host) :
    host = percentDecode t := by
  have hmode : Encoding.encodeHost ≠ Encoding.encodeQueryComponent := by decide
  unfold parseHost at h
  split_ifs at h with hbr
  · split at h
    · cases h
    · rename_i i hi
      simp only at h
      split_ifs at h with hport
      split at h
      · rename_i zone hzone
        split at h
        · cases h
        · rename_i host1 h1
          split at h
          · cases h
          · rename_i host2 h2
            split at h
            · cases h
            · rename_i host3 h3
              simp only [Except.ok.injEq] at h
              have hz : zone ≤ i := by
                have := stringsIndex_le _ _ _ hzone
                simp only [List.length_take] at this
                omega
              have e1 := unescape_eq _ hmode _ _ h1
              have e2 := unescape_eq _ (by decide) _ _ h2
              have e3 := unescape_eq _ hmode _ _ h3
              obtain ⟨b1, c1⟩ := unescape_check _ _ _ h1
              obtain ⟨b2, c2⟩ := unescape_check _ _ _ h2
              have hsplit : t = t.take zone ++ ((t.take i).drop zone ++ t.drop i) := by
                have ha : t.take zone = (t.take i).take zone := by
                  rw [List.take_take, Nat.min_eq_left hz]
                rw [ha, ← List.append_assoc, List.take_append_drop, List.take_append_drop]
              rw [← h, e1, e2, e3]
              conv_rhs => rw [hsplit]
              rw [percentDecode_append _ _ _ _ le_rfl b1 c1,
                percentDecode_append _ _ _ _ le_rfl b2 c2, List.append_assoc]
      · exact unescape_eq _ hmode _ _ h
  · split at h
    · split_ifs at h
      exact unescape_eq _ hmode _ _ h
    · exact unescape_eq _ hmode _ _ h

/-- The host that parseAuthority returns is the percent-decoded text after
the last "@" of the authority. -/
theorem parseAuthority_host (authority : GoString) (user : Option (GoString × Option GoString))
    (host : GoString) (h : parseAuthority authority = .ok (user, host)) :
    host = percentDecode (afterLast 64 authority) := by
  rw [← stringsLastIndex_drop]
  unfold parseAuthority at h
  simp only at h
  split at h
  · cases h
  · rename_i host1 hhost
    have hh := parseHost_eq _ _ hhost
    have hfin : host = host1 := by
      split at h
      · simp only [Except.ok.injEq, Prod.mk.injEq] at h
        exact h.2.symm
      · split_ifs at h
        · split at h
          · cases h
          · simp only [Except.ok.injEq, Prod.mk.injEq] at h
            exact h.2.symm
        · split at h
          · cases h
          · split at h
            · cases h
            · simp only [Except.ok.injEq, Prod.mk.injEq] at h
              exact h.2.symm
    rw [hfin, hh]

theorem dropWhile_digits_colon (l rest : GoString) (hall : ∀ b ∈ l, isDigit b = true) :
    List.dropWhile isDigit (l ++ 58 :: rest) = 58 :: rest := by
  induction l with
  | nil => rfl
  | cons a t ih =>
    have ha := hall a (List.mem_cons_self _ _)
    have ht := ih (fun b hb => hall b (List.mem_cons_of_mem _ hb))
    simp [List.dropWhile_cons, ha, ht]

theorem dropWhile_digits_other (l rest : GoString) (h58 : 58 ∉ l)
    (hnot : ¬ ∀ b ∈ l, isDigit b = true) :
    ∃ x t, List.dropWhile isDigit (l ++ rest) = x :: t ∧ x ≠ 58 := by
  induction l with
  | nil => exact absurd (fun b hb => absurd hb (List.not_mem_nil b)) hnot
  | cons a t ih =>
    have ha58 : a ≠ 58 := fun hc => h58 (hc ▸ List.mem_cons_self _ _)
    have ht58 : 58 ∉ t := fun hm => h58 (List.mem_cons_of_mem _ hm)
    by_cases ha : isDigit a = true
    · have hnot1 : ¬ ∀ b ∈ t, isDigit b = true := by
        intro hall
        apply hnot
        intro b hb
        rcases List.mem_cons.mp hb with h1 | h1
        · rw [h1]; exact ha
        · exact hall b h1
      obtain ⟨x, u, hx, hne⟩ := ih ht58 hnot1
      exact ⟨x, u, by simp [List.dropWhile_cons, ha, hx], hne⟩
    · exact ⟨a, t ++ rest, by simp [List.dropWhile_cons, ha], ha58⟩

theorem dropWhile_digits_no_colon (l : GoString) (h58 : 58 ∉ l) :
    List.dropWhile isDigit l = [] ∨ ∃ x t, List.dropWhile isDigit l = x :: t ∧ x ≠ 58 := by
  by_cases hall : ∀ b ∈ l, isDigit b = true
  · left
    rw [List.dropWhile_eq_nil_iff]
    exact hall
  · right
    have := dropWhile_digits_other l [] h58 hall
    simpa using this

theorem validOptionalPort_colon (post : GoString) :
    validOptionalPort (58 :: post) = true ↔ ∀ b ∈ post, isDigit b = true := by
  simp only [validOptionalPort, beq_self_eq_true, Bool.true_and, List.all_eq_true]
  constructor
  · intro h b hb
    have := h b hb
    simp only [isDigit, Bool.and_eq_true, decide_eq_true_eq]
    simp only [Bool.not_eq_true', Bool.or_eq_false_iff, decide_eq_false_iff_not] at this
    omega
  · intro h b hb
    have := h b hb
    simp only [isDigit, Bool.and_eq_true, decide_eq_true_eq] at this
    simp only [Bool.not_eq_true', Bool.or_eq_false_iff, decide_eq_false_iff_not]
    omega

theorem withoutPort_of_head_ne (h : GoString) (x : Nat) (t : GoString)
    (hd : List.dropWhile isDigit h.reverse = x :: t) (hx : x ≠ 58) : withoutPort h = h := by
  unfold withoutPort
  rw [hd]
  split
  · rename_i heq
    simp only [List.cons.injEq] at heq
    exact absurd heq.1 hx
  · rfl

/-- The port that splitHostPort cuts off is a final ":" followed by digits. -/
theorem splitHostPort_port (h : GoString) :
    (match stringsLastIndex h [58] with
      | some i =>
        if validOptionalPort (h.drop i) then (h.take i, h.drop (i + 1)) else (h, [])
      | none => (h, [])).1 = withoutPort h := by
  by_cases hmem : 58 ∈ h
  · obtain ⟨pre, post, rfl, hpost⟩ := exists_last_occurrence 58 h hmem
    rw [stringsLastIndex_single_append 58 pre post hpost]
    simp only [List.drop_left, List.take_left]
    have hrev : (pre ++ 58 :: post).reverse = post.reverse ++ 58 :: pre.reverse := by simp
    by_cases hall : ∀ b ∈ post, isDigit b = true
    · rw [if_pos ((validOptionalPort_colon post).mpr hall)]
      unfold withoutPort
      rw [hrev, dropWhile_digits_colon post.reverse pre.reverse
        (fun b hb => hall b (List.mem_reverse.mp hb))]
      simp
    · rw [if_neg (fun hv => hall ((validOptionalPort_colon post).mp hv))]
      have hnot : ¬ ∀ b ∈ post.reverse, isDigit b = true := by
        intro hr
        exact hall (fun b hb => hr b (List.mem_reverse.mpr hb))
      obtain ⟨x, t, hx, hne⟩ := dropWhile_digits_other post.reverse (58 :: pre.reverse)
        (by simpa using hpost) hnot
      rw [← hrev] at hx
      exact (withoutPort_of_head_ne _ x t hx hne).symm
  · rw [stringsLastIndex_single_none 58 h hmem]
    rcases dropWhile_digits_no_colon h.reverse (by simpa using hmem) with hd | ⟨x, t, hx, hne⟩
    · unfold withoutPort
      rw [hd]
    · exact (withoutPort_of_head_ne _ x t hx hne).symm

theorem hasPrefix_single (x : GoString) (c : Nat) :
    hasPrefix x [c] = true ↔ x.head? = some c := by
  cases x with
  | nil => simp [hasPrefix]
  | cons a t =>
    simp only [hasPrefix, List.isPrefixOf, List.head?_cons, Option.some.injEq, Bool.and_true,
      beq_iff_eq]
    exact eq_comm

theorem hasSuffix_single (x : GoString) (c : Nat) :
    hasSuffix x [c] = true ↔ x.getLast? = some c := by
  unfold hasSuffix
  rw [List.isSuffixOf_iff_suffix]
  constructor
  · rintro ⟨t, rfl⟩
    simp
  · intro h
    refine ⟨x.dropLast, ?_⟩
    exact List.dropLast_append_getLast? c h

theorem stripBrackets_eq (x : GoString) :
    (if (hasPrefix x [91] && hasSuffix x [93]) = true then (x.take (x.length - 1)).drop 1
      else x) = withoutBrackets x := by
  unfold withoutBrackets
  by_cases h : x.head? = some 91 ∧ x.getLast? = some 93
  · have hb : (hasPrefix x [91] && hasSuffix x [93]) = true := by
      rw [Bool.and_eq_true, hasPrefix_single, hasSuffix_single]
      exact h
    rw [if_pos hb, if_pos h, List.dropLast_eq_take, List.drop_take, List.length_drop]
  · have hb : ¬ (hasPrefix x [91] && hasSuffix x [93]) = true := by
      rw [Bool.and_eq_true, hasPrefix_single, hasSuffix_single]
      exact h
    rw [if_neg hb, if_neg h]

/-- The host name that (*URL).Hostname returns: the host and port without the
port and without the brackets of an IP literal. -/
theorem splitHostPort_fst (h : GoString) :
    (splitHostPort h).1 = withoutBrackets (withoutPort h) := by
  rw [← stripBrackets_eq, ← splitHostPort_port]
  unfold splitHostPort
  simp only
  split_ifs <;> rfl

theorem setPath_host (u v : URL) (p : GoString) (h : setPath u p = .ok v) : v.Host = u.Host := by
  unfold setPath at h
  split at h
  · cases h
  · simp only [Except.ok.injEq] at h
    rw [← h]

theorem setFragment_host (u v : URL) (f : GoString) (h : setFragment u f = .ok v) :
    v.Host = u.Host := by
  unfold setFragment at h
  split at h
  · cases h
  · simp only [Except.ok.injEq] at h
    rw [← h]

theorem restWithoutQuery (rest0 : GoString) :
    (if (hasSuffix rest0 [63] && stringsCount rest0 [63] == 1) = true
      then rest0.take (rest0.length - 1) else (stringsCut rest0 [63]).1) = beforeFirst 63 rest0 := by
  split_ifs with hq
  · simp only [Bool.and_eq_true, beq_iff_eq] at hq
    exact forceQuery_take rest0 hq.1 hq.2
  · exact stringsCut_fst 63 rest0

theorem hasPrefix_iff (s pre : GoString) : hasPrefix s pre = true ↔ pre <+: s := by
  unfold hasPrefix
  exact List.isPrefixOf_iff_prefix

theorem authority_none (rest1 : GoString)
    (h : ¬ hasPrefix rest1 [47, 47] = true ∨ hasPrefix rest1 [47, 47, 47] = true) :
    percentDecode (afterLast 64
      (if [47, 47] <+: rest1 then beforeFirst 47 (rest1.drop 2) else [])) = [] := by
  rcases h with h | h
  · rw [hasPrefix_iff] at h
    rw [if_neg h]
    rfl
  · rw [hasPrefix_iff] at h
    obtain ⟨t, rfl⟩ := h
    have h2 : [47, 47] <+: [47, 47, 47] ++ t := ⟨47 :: t, rfl⟩
    rw [if_pos h2]
    rfl

theorem hasPrefix_slash_of_double (rest1 : GoString) (h : hasPrefix rest1 [47, 47] = true) :
    hasPrefix rest1 [47] = true := by
  rw [hasPrefix_iff] at h ⊢
  obtain ⟨t, rfl⟩ := h
  exact ⟨47 :: t, rfl⟩

theorem parse_host (s : GoString) (url : URL) (h : parse s false = .ok url) :
    url.Host = percentDecode (afterLast 64
      (if [47, 47] <+: beforeFirst 63 (withoutScheme s) then
        beforeFirst 47 ((beforeFirst 63 (withoutScheme s)).drop 2) else [])) := by
  by_cases hctl : stringContainsCTLByte s = true
  · simp [parse, hctl] at h
  by_cases hstar : s = [42]
  · subst hstar
    rw [show parse [42] false = .ok { Path := [42] } from by decide] at h
    simp only [Except.ok.injEq] at h
    rw [← h]
    decide
  unfold parse at h
  rw [if_neg hctl, if_neg (by simp), if_neg hstar] at h
  split at h
  · cases h
  · rename_i scheme0 rest0 hgs
    have hrest := getScheme_rest s _ _ hgs
    subst hrest
    simp only [restWithoutQuery, stringsIndex_take] at h
    generalize beforeFirst 63 (withoutScheme s) = rest1 at h ⊢
    generalize stringsToLower scheme0 = scheme at h
    generalize (hasSuffix (withoutScheme s) [63] && stringsCount (withoutScheme s) [63] == 1)
      = forceQuery at h
    generalize (if forceQuery = true then [] else (stringsCut (withoutScheme s) [63]).2.1)
      = rawQuery at h
    split_ifs at h with h1 h3 h4 h5 h6
    · simp only [Except.ok.injEq] at h
      rw [← h, authority_none rest1 (Or.inl ?_)]
      intro hp
      have := hasPrefix_slash_of_double rest1 hp
      simp [this] at h1
    · split at h
      · cases h
      · rename_i user host hpa
        rw [setPath_host _ _ _ h, if_pos ((hasPrefix_iff _ _).mp h5.2)]
        exact parseAuthority_host _ user host hpa
    · rw [setPath_host _ _ _ h, authority_none rest1 (Or.inl ?_)]
      intro hp
      exact h5 ⟨Or.inl h6.1, hp⟩
    · rw [setPath_host _ _ _ h, authority_none rest1 ?_]
      by_cases hp : hasPrefix rest1 [47, 47] = true
      · right
        by_contra h3s
        apply h5
        refine ⟨Or.inr ⟨rfl, ?_⟩, hp⟩
        simpa using h3s
      · exact Or.inl hp

/-- The host that url.Parse stores is the percent-decoded authority of the
address after its user information. -/
theorem urlParse_host (rawURL : GoString) (u : URL) (h : urlParse rawURL = .ok u) :
    u.Host = percentDecode (afterLast 64 (authorityOf rawURL)) := by
  unfold urlParse at h
  simp only at h
  unfold authorityOf
  rw [← stringsCut_fst 35 rawURL]
  split at h
  · cases h
  · rename_i url hp
    split_ifs at h
    · simp only [Except.ok.injEq] at h
      rw [← h]
      exact parse_host _ _ hp
    · rw [setFragment_host _ _ _ h]
      exact parse_host _ _ hp

/-- What extractDomain returns for an address that url.Parse accepts is the
host component of the address. -/
theorem extractDomain_eq_hostComponent (rawURL : GoString) (u : URL)
    (h : urlParse rawURL = .ok u) : extractDomain rawURL = some (hostComponent rawURL) := by
  unfold extractDomain
  rw [h]
  simp only [URL.Hostname, hostComponent, splitHostPort_fst, urlParse_host rawURL u h]

/-- C6: for every address that url.Parse accepts, extractDomain returns the
host component of the address, and it is the Hostname of the parsed URL.  The
host component is defined on the text of the address, independently of the
parser: the fragment (from the first "#"), the scheme (a scheme name of RFC
3986 and its ":") and the query (from the first "?") are removed; if the rest
starts with "//", the authority is the text up to the next "/", so the path is
removed; the user information (up to the last "@") is removed, the text is
percent-decoded, a final ":" with digits (the port) is removed, and so are the
square brackets of an IP literal.  The same holds under a release of net/url
that rejects more addresses than go1.22 does, for the addresses it accepts.
For an address scheme://host, with an optional :port and an optional /path,
the result is exactly the host; "https://api.example.com/v1" and
"https://api.example.com:8443/v1" both give "api.example.com", and so does an
address with user information, a query and a fragment.  "http://[foo]/x", a
host in brackets that is not an IPv6 address, is accepted by go1.22, with the
host component "foo"; a release that rejects it sends it to the fallback,
which returns "[foo]". -/
theorem extractDomain_hostname :
    (∀ rawURL u, urlParse rawURL = .ok u →
      u.Hostname = hostComponent rawURL ∧ extractDomain rawURL = some (hostComponent rawURL)) ∧
    (∀ rejected rawURL u, urlParseUnder rejected rawURL = .ok u →
      extractDomainUnder rejected rawURL = some (hostComponent rawURL)) ∧
    (∀ scheme host portPart pathPart : GoString,
      scheme ≠ [] → (∀ b ∈ scheme, isAlpha b = true) → (∀ b ∈ host, hostByte b = true) →
      (portPart = [] ∨ ∃ digits, portPart = 58 :: digits ∧ ∀ b ∈ digits, isDigit b = true) →
      (pathPart = [] ∨ ∃ p, pathPart = 47 :: p ∧ ∀ b ∈ p, pathByte b = true) →
      extractDomain (scheme ++ [58, 47, 47] ++ host ++ portPart ++ pathPart) = some host ∧
      hostComponent (scheme ++ [58, 47, 47] ++ host ++ portPart ++ pathPart) = host) ∧
    extractDomain (goStr "https://api.example.com/v1") = some (goStr "api.example.com") ∧
    extractDomain (goStr "https://api.example.com:8443/v1") = some (goStr "api.example.com") ∧
    extractDomain (goStr "https://user:pw@api.example.com:8443/v1?x=1#top")
      = some (goStr "api.example.com") ∧
    extractDomain (goStr "HTTP://Api.Example.com?x=/y") = some (goStr "Api.Example.com") ∧
    extractDomain (goStr "http://[::1]:8080/x") = some (goStr "::1") ∧
    extractDomain (goStr "http://[fe80::1%25eth0]/") = some (goStr "fe80::1%eth0") ∧
    extractDomain (goStr "http://caf%C3%A9.example:80/") = some (goStr "café.example") ∧
    extractDomain (goStr "mailto:ops@example.com") = some (goStr "") ∧
    extractDomain (goStr "http://[foo]/x") = some (goStr "foo") ∧
    extractDomainUnder (fun rawURL => rawURL == goStr "http://[foo]/x") (goStr "http://[foo]/x")
      = some (goStr "[foo]") := by
  refine ⟨?_, ?_, ?_, by decide, by decide, by decide, by decide, by decide, by decide,
    by decide, by decide, by decide, by decide⟩
  · intro rawURL u h
    have hd := extractDomain_eq_hostComponent rawURL u h
    refine ⟨?_, hd⟩
    simp only [extractDomain, h, Option.some.injEq] at hd
    exact hd
  · intro rejected rawURL u h
    unfold urlParseUnder at h
    split_ifs at h with hr
    have hd := extractDomain_eq_hostComponent rawURL u h
    simp only [extractDomain, h, Option.some.injEq] at hd
    simp only [extractDomainUnder, urlParseUnder, hr, h]
    rw [← hd]
    rfl
  · intro scheme host portPart pathPart hscheme hletters hhost hport hpath
    have hparse := urlParse_standard scheme host portPart pathPart hscheme hletters hhost
      hport hpath
    have hd := extractDomain_eq_hostComponent _ _ hparse
    have hx : extractDomain (scheme ++ [58, 47, 47] ++ host ++ portPart ++ pathPart)
        = some host := by
      unfold extractDomain
      rw [hparse]
      simp only [URL.Hostname]
      rw [splitHostPort_standard host portPart hhost hport]
    refine ⟨hx, ?_⟩
    rw [hx] at hd
    exact (Option.some.inj hd).symm

/-- Witness of C6 at "https://user:pw@api.example.com:8443/v1?x=1#top" and, for
the addresses scheme://host:port/path, at "https://api.example.com:8443/v1". -/
theorem extractDomain_hostname_witness :
    urlParse (goStr "https://user:pw@api.example.com:8443/v1?x=1#top") =
      .ok { Scheme := goStr "https", User := some (goStr "user", some (goStr "pw")),
            Host := goStr "api.example.com:8443", Path := goStr "/v1", RawQuery := goStr "x=1",
            Fragment := goStr "top" } ∧
    hostComponent (goStr "https://user:pw@api.example.com:8443/v1?x=1#top")
      = goStr "api.example.com" ∧
    extractDomain (goStr "https://user:pw@api.example.com:8443/v1?x=1#top") =
      some (hostComponent (goStr "https://user:pw@api.example.com:8443/v1?x=1#top")) ∧
    extractDomain (goStr "https" ++ [58, 47, 47] ++ goStr "api.example.com" ++ goStr ":8443"
      ++ goStr "/v1") = some (goStr "api.example.com") :=
  ⟨by decide, by decide,
    (extractDomain_hostname.1 (goStr "https://user:pw@api.example.com:8443/v1?x=1#top")
      { Scheme := goStr "https", User := some (goStr "user", some (goStr "pw")),
        Host := goStr "api.example.com:8443", Path := goStr "/v1", RawQuery := goStr "x=1",
        Fragment := goStr "top" } (by decide)).2,
    (extractDomain_hostname.2.2.1 (goStr "https") (goStr "api.example.com") (goStr ":8443")
      (goStr "/v1") (by decide) (by decide) (by decide)
      (Or.inr ⟨goStr "8443", by decide, by decide⟩)
      (Or.inr ⟨goStr "v1", by decide, by decide⟩)).1⟩

/-! ## The registry and checkHealth -/

theorem Stats.get_set_self (stats : Stats) (d : GoString) (v : DomainStats) :
    (stats.set d v).get d = some v := by
  induction stats with
  | nil => simp [Stats.set, Stats.get]
  | cons hd tl ih =>
    obtain ⟨k, w⟩ := hd
    by_cases hk : k = d
    · simp [Stats.set, Stats.get, hk]
    · simp [Stats.set, Stats.get, hk, ih]

theorem Stats.get_set_of_ne (stats : Stats) (d d' : GoString) (v : DomainStats) (h : d' ≠ d) :
    (stats.set d v).get d' = stats.get d' := by
  induction stats with
  | nil => simp [Stats.set, Stats.get, Ne.symm h]
  | cons hd tl ih =>
    obtain ⟨k, w⟩ := hd
    by_cases hk : k = d
    · subst hk
      simp [Stats.set, Stats.get, Ne.symm h]
    · by_cases hk' : k = d'
      · subst hk'
        simp [Stats.set, Stats.get, hk]
      · simp [Stats.set, Stats.get, hk, hk', ih]

theorem Stats.set_set (stats : Stats) (d : GoString) (v w : DomainStats) :
    (stats.set d v).set d w = stats.set d w := by
  induction stats with
  | nil => simp [Stats.set]
  | cons hd tl ih =>
    obtain ⟨k, u⟩ := hd
    by_cases hk : k = d
    · simp [Stats.set, hk]
    · simp [Stats.set, hk, ih]

theorem Stats.ensure_set (stats : Stats) (d : GoString) (w : DomainStats) :
    (stats.ensure d).set d w = stats.set d w := by
  unfold Stats.ensure
  cases stats.get d with
  | none => simp [Stats.set_set]
  | some st => rfl

theorem Stats.get_ensure_self (stats : Stats) (d : GoString) :
    (stats.ensure d).get d = some (stats.counters d) := by
  unfold Stats.ensure Stats.counters
  cases h : stats.get d with
  | none => simp [Stats.get_set_self]
  | some st => simp [h]

theorem Stats.get_ensure_of_ne (stats : Stats) (d d' : GoString) (h : d' ≠ d) :
    (stats.ensure d).get d' = stats.get d' := by
  unfold Stats.ensure
  cases stats.get d with
  | none => simp [Stats.get_set_of_ne _ _ _ _ h]
  | some st => rfl

theorem Stats.counters_set_self (stats : Stats) (d : GoString) (v : DomainStats) :
    (stats.set d v).counters d = v := by
  simp [Stats.counters, Stats.get_set_self]

theorem wrapInt_of_range (x : ℤ) (hlo : -2 ^ 63 ≤ x) (hhi : x < 2 ^ 63) : wrapInt x = x := by
  unfold wrapInt
  omega

theorem goInc_of_lt (x : ℤ) (hlo : -2 ^ 63 ≤ x) (hhi : x < 2 ^ 63 - 1) : goInc x = x + 1 := by
  unfold goInc
  exact wrapInt_of_range (x + 1) (by omega) (by omega)

theorem goInc_ne (x : ℤ) : goInc x ≠ x := by
  unfold goInc wrapInt
  omega

theorem wrapInt_add_wrapInt (a b : ℤ) : wrapInt (wrapInt a + b) = wrapInt (a + b) := by
  unfold wrapInt
  omega

/-- The registry after one call: the entry of the endpoint's domain is
rewritten, with `Total++` applied and `Success++` applied exactly on the
success branch. -/
theorem checkHealth_eq (stats : Stats) (endpoint : Endpoint) (outcome : Outcome)
    (domain : GoString) (hd : extractDomain endpoint.URL = some domain) :
    checkHealth stats endpoint outcome = some (stats.set domain
      { Success := if probeSucceeded outcome then goInc (stats.counters domain).Success
          else (stats.counters domain).Success,
        Total := goInc (stats.counters domain).Total }) := by
  unfold checkHealth
  simp only [hd]
  cases outcome with
  | requestError =>
    simp [Stats.incTotal, Stats.get_ensure_self, Stats.ensure_set, probeSucceeded]
  | transportError d =>
    simp [Stats.incTotal, Stats.get_ensure_self, Stats.ensure_set, probeSucceeded]
  | response sc du =>
    simp only [Stats.incTotal, Stats.get_ensure_self, Stats.ensure_set]
    by_cases h1 : sc < 200 ∨ sc ≥ 300
    · simp [h1, probeSucceeded]
    · by_cases h2 : du > 500 * millisecond
      · simp [h1, h2, probeSucceeded]
      · simp [h1, h2, probeSucceeded, Stats.incSuccess, Stats.get_set_self, Stats.set_set]

theorem successAfter_eq (stats : Stats) (endpoint : Endpoint) (outcome : Outcome) :
    successAfter stats endpoint outcome =
      (successBefore stats endpoint).map
        (fun x => if probeSucceeded outcome then goInc x else x) := by
  obtain ⟨domain, hd⟩ := extractDomain_total endpoint.URL
  simp [successAfter, successBefore, hd, checkHealth_eq stats endpoint outcome domain hd,
    Stats.counters_set_self]

theorem totalAfter_eq (stats : Stats) (endpoint : Endpoint) (outcome : Outcome) :
    totalAfter stats endpoint outcome = (totalBefore stats endpoint).map goInc := by
  obtain ⟨domain, hd⟩ := extractDomain_total endpoint.URL
  simp [totalAfter, totalBefore, hd, checkHealth_eq stats endpoint outcome domain hd,
    Stats.counters_set_self]

theorem probeSucceeded_iff (outcome : Outcome) :
    probeSucceeded outcome = true ↔
      ∃ statusCode duration, outcome = .response statusCode duration ∧
        200 ≤ statusCode ∧ statusCode ≤ 299 ∧ duration ≤ 500 * millisecond := by
  cases outcome with
  | requestError => simp [probeSucceeded]
  | transportError d => simp [probeSucceeded]
  | response sc du =>
    simp only [probeSucceeded, Bool.and_eq_true, Bool.not_eq_true', decide_eq_false_iff_not,
      Outcome.response.injEq]
    constructor
    · rintro ⟨h1, h2⟩
      exact ⟨sc, du, ⟨rfl, rfl⟩, by omega, by omega, by omega⟩
    · rintro ⟨sc', du', ⟨rfl, rfl⟩, h1, h2, h3⟩
      exact ⟨by omega, by omega⟩

/-- C1: one checkHealth call executes `Success++` on the counter of the
endpoint's domain, raising it by exactly 1, if and only if client.Do returned
a response, without error, whose status code is in 200..299 and whose measured
duration is at most 500 ms; in every other case the Success counter is
unchanged.  Status 200 at exactly 500 ms is a success, status 200 at 600 ms is
a failure, and status 404, 199 and 300 are failures whatever the duration.
The call does not panic: the counter has a value before and after.
(`Success++` is one more for every value below the largest `int`, 2^63 - 1,
and wraps to -2^63 there.) -/
theorem checkHealth_success_classification (stats : Stats) (endpoint : Endpoint)
    (outcome : Outcome) :
    (successAfter stats endpoint outcome = (successBefore stats endpoint).map goInc ↔
      ∃ statusCode duration, outcome = .response statusCode duration ∧
        200 ≤ statusCode ∧ statusCode ≤ 299 ∧ duration ≤ 500 * millisecond) ∧
    ((¬ ∃ statusCode duration, outcome = .response statusCode duration ∧
        200 ≤ statusCode ∧ statusCode ≤ 299 ∧ duration ≤ 500 * millisecond) →
      successAfter stats endpoint outcome = successBefore stats endpoint) ∧
    (∀ x : ℤ, -2 ^ 63 ≤ x → x < 2 ^ 63 - 1 → goInc x = x + 1) ∧
    successAfter stats endpoint (.response 200 (500 * millisecond)) =
      (successBefore stats endpoint).map goInc ∧
    successAfter stats endpoint (.response 200 (600 * millisecond)) =
      successBefore stats endpoint ∧
    (∀ duration, successAfter stats endpoint (.response 404 duration) =
      successBefore stats endpoint) ∧
    (∀ duration, successAfter stats endpoint (.response 199 duration) =
      successBefore stats endpoint) ∧
    (∀ duration, successAfter stats endpoint (.response 300 duration) =
      successBefore stats endpoint) ∧
    (∃ before after, successBefore stats endpoint = some before ∧
      successAfter stats endpoint outcome = some after) := by
  obtain ⟨domain, hd⟩ := extractDomain_total endpoint.URL
  have hb : successBefore stats endpoint = some (stats.counters domain).Success := by
    simp [successBefore, hd]
  refine ⟨?_, ?_, goInc_of_lt, ?_, ?_, ?_, ?_, ?_, ⟨_, _, hb, by rw [successAfter_eq, hb]; rfl⟩⟩
  · rw [← probeSucceeded_iff, successAfter_eq, hb]
    cases probeSucceeded outcome <;> simp [Ne.symm (goInc_ne _)]
  · rw [← probeSucceeded_iff, successAfter_eq, hb]
    cases probeSucceeded outcome <;> simp
  · rw [successAfter_eq, hb]; simp [probeSucceeded, millisecond]
  · rw [successAfter_eq, hb]; simp [probeSucceeded, millisecond]
  · intro du; rw [successAfter_eq, hb]; simp [probeSucceeded]
  · intro du; rw [successAfter_eq, hb]; simp [probeSucceeded]
  · intro du; rw [successAfter_eq, hb]; simp [probeSucceeded]

/-- C2, as amended: whatever the endpoint and the outcome of one checkHealth
call (request construction failure, transport error, non-2xx status, slow
response, success), the call returns and, the Total counter of the endpoint's
domain being an `int` below the largest one, 2^63 - 1, before the call, it is
exactly one greater after it; a request construction failure raises Total by
one and leaves Success unchanged. -/
theorem checkHealth_total_increment (stats : Stats) (endpoint : Endpoint) (outcome : Outcome)
    (x : ℤ) (hx : totalBefore stats endpoint = some x) (hlo : -2 ^ 63 ≤ x)
    (hhi : x < 2 ^ 63 - 1) :
    totalAfter stats endpoint outcome = some (x + 1) ∧
    totalAfter stats endpoint .requestError = some (x + 1) ∧
    successAfter stats endpoint .requestError = successBefore stats endpoint := by
  refine ⟨?_, ?_, ?_⟩
  · rw [totalAfter_eq, hx]; simp [goInc_of_lt x hlo hhi]
  · rw [totalAfter_eq, hx]; simp [goInc_of_lt x hlo hhi]
  · rw [successAfter_eq]
    cases successBefore stats endpoint <;> simp [probeSucceeded]

/-- Witness of C2: the first probe of a.com, in the empty registry. -/
theorem checkHealth_total_increment_witness :
    totalBefore [] probeA = some 0 ∧
    totalAfter [] probeA (.response 404 1000) = some (0 + 1) :=
  ⟨by decide,
    (checkHealth_total_increment [] probeA (.response 404 1000) 0 (by decide) (by norm_num)
      (by norm_num)).1⟩

/-- C2, counterexample: the Total of a.com is the largest `int`, 2^63 - 1; a
call whose request cannot be built executes `Total++`, and the counter is
-2^63 after the call, not one greater than before. -/
theorem checkHealth_total_wraps :
    totalBefore [(goStr "a.com", { Success := 0, Total := 9223372036854775807 })] probeA
      = some 9223372036854775807 ∧
    totalAfter [(goStr "a.com", { Success := 0, Total := 9223372036854775807 })] probeA
      .requestError = some (-9223372036854775808) ∧
    totalAfter [(goStr "a.com", { Success := 0, Total := 9223372036854775807 })] probeA
      .requestError ≠ some (9223372036854775807 + 1) := by
  have hb : totalBefore [(goStr "a.com", { Success := 0, Total := 9223372036854775807 })] probeA
      = some 9223372036854775807 := by decide
  have hw : goInc 9223372036854775807 = -9223372036854775808 := by
    unfold goInc wrapInt
    norm_num
  refine ⟨hb, ?_, ?_⟩
  · rw [totalAfter_eq, hb]; simp [hw]
  · rw [totalAfter_eq, hb]; simp [hw]

theorem Stats.countersOk_nil (n : ℤ) : Stats.CountersOk [] n := by
  intro d st h
  simp [Stats.get] at h

theorem Stats.countersOk_mono (stats : Stats) (n m : ℤ) (h : stats.CountersOk n) (hnm : n ≤ m) :
    stats.CountersOk m := by
  intro d st hst
  obtain ⟨h1, h2, h3⟩ := h d st hst
  exact ⟨h1, h2, by omega⟩

theorem Stats.countersOk_counters (stats : Stats) (n : ℤ) (hn : 0 ≤ n) (h : stats.CountersOk n)
    (d : GoString) :
    0 ≤ (stats.counters d).Success ∧ (stats.counters d).Success ≤ (stats.counters d).Total ∧
      (stats.counters d).Total ≤ n := by
  unfold Stats.counters
  cases hg : stats.get d with
  | none => simpa using hn
  | some st => simpa using h d st hg

theorem Stats.countersOk_set (stats : Stats) (n : ℤ) (h : stats.CountersOk n) (d : GoString)
    (v : DomainStats) (hv : 0 ≤ v.Success ∧ v.Success ≤ v.Total ∧ v.Total ≤ n) :
    (stats.set d v).CountersOk n := by
  intro d' st hst
  by_cases hd : d' = d
  · subst hd
    rw [Stats.get_set_self] at hst
    cases hst
    exact hv
  · rw [Stats.get_set_of_ne _ _ _ _ hd] at hst
    exact h d' st hst

theorem Stats.countersOk_ensure (stats : Stats) (n : ℤ) (hn : 0 ≤ n) (h : stats.CountersOk n)
    (d : GoString) : (stats.ensure d).CountersOk n := by
  unfold Stats.ensure
  cases stats.get d with
  | none => exact Stats.countersOk_set stats n h d {} (by simpa using hn)
  | some st => exact h

theorem checkHealth_countersOk (stats : Stats) (n : ℤ) (hn : 0 ≤ n) (hmax : n < 2 ^ 63 - 1)
    (h : stats.CountersOk n) (endpoint : Endpoint) (outcome : Outcome) :
    ∃ stats1, checkHealth stats endpoint outcome = some stats1 ∧ stats1.CountersOk (n + 1) := by
  obtain ⟨domain, hd⟩ := extractDomain_total endpoint.URL
  refine ⟨_, checkHealth_eq stats endpoint outcome domain hd, ?_⟩
  apply Stats.countersOk_set _ _ (Stats.countersOk_mono stats n (n + 1) h (by omega))
  obtain ⟨h1, h2, h3⟩ := Stats.countersOk_counters stats n hn h domain
  have hT := goInc_of_lt (stats.counters domain).Total (by omega) (by omega)
  have hS := goInc_of_lt (stats.counters domain).Success (by omega) (by omega)
  cases probeSucceeded outcome
  · simp only [Bool.false_eq_true, if_false, hT]
    omega
  · simp only [if_true, hT, hS]
    omega

theorem preSeed_countersOk (endpoints : List Endpoint) (stats : Stats) (h : stats.CountersOk 0) :
    ∃ seeded, preSeed stats endpoints = some seeded ∧ seeded.CountersOk 0 := by
  induction endpoints generalizing stats with
  | nil => exact ⟨stats, rfl, h⟩
  | cons e rest ih =>
    obtain ⟨domain, hd⟩ := extractDomain_total e.URL
    obtain ⟨seeded, hs, hok⟩ :=
      ih (stats.ensure domain) (Stats.countersOk_ensure stats 0 (le_refl _) h domain)
    exact ⟨seeded, by simp [preSeed, hd, hs], hok⟩

theorem runCalls_countersOk (calls : List (Endpoint × Outcome)) (stats : Stats) (n : ℤ)
    (hn : 0 ≤ n) (hmax : n + calls.length < 2 ^ 63) (h : stats.CountersOk n) :
    ∃ final, runCalls stats calls = some final ∧ final.CountersOk (n + calls.length) := by
  induction calls generalizing stats n with
  | nil => exact ⟨stats, rfl, by simpa using h⟩
  | cons c rest ih =>
    simp only [List.length_cons, Nat.cast_add, Nat.cast_one] at hmax ⊢
    obtain ⟨stats1, h1, hok1⟩ := checkHealth_countersOk stats n hn (by omega) h c.1 c.2
    obtain ⟨final, hf, hok⟩ := ih stats1 (n + 1) (by omega) (by omega) hok1
    refine ⟨final, by simp [runCalls, h1, hf], ?_⟩
    have e : n + 1 + (rest.length : ℤ) = n + ((rest.length : ℤ) + 1) := by ring
    rw [← e]
    exact hok

theorem checkHealth_monotone (stats : Stats) (endpoint : Endpoint) (outcome : Outcome) :
    ∃ stats1, checkHealth stats endpoint outcome = some stats1 ∧
      ∀ d st, stats.get d = some st →
        -2 ^ 63 ≤ st.Success → st.Success < 2 ^ 63 - 1 →
        -2 ^ 63 ≤ st.Total → st.Total < 2 ^ 63 - 1 →
        ∃ st1, stats1.get d = some st1 ∧ st.Success ≤ st1.Success ∧ st.Total ≤ st1.Total := by
  obtain ⟨domain, hd⟩ := extractDomain_total endpoint.URL
  refine ⟨_, checkHealth_eq stats endpoint outcome domain hd, ?_⟩
  intro d st hst hs1 hs2 ht1 ht2
  by_cases hdd : d = domain
  · subst hdd
    refine ⟨_, Stats.get_set_self _ _ _, ?_⟩
    have hc : stats.counters d = st := by simp [Stats.counters, hst]
    rw [hc, goInc_of_lt _ ht1 ht2]
    cases probeSucceeded outcome
    · simp
    · simp [goInc_of_lt _ hs1 hs2]
  · exact ⟨st, by rw [Stats.get_set_of_ne _ _ _ _ hdd]; exact hst, le_refl _, le_refl _⟩

/-- The Total of one domain after `n` calls whose request cannot be built. -/
theorem runCalls_requestError (endpoint : Endpoint) (d : GoString)
    (hd : extractDomain endpoint.URL = some d) (n : ℕ) (stats : Stats) :
    ∃ final, runCalls stats (List.replicate n (endpoint, Outcome.requestError)) = some final ∧
      (final.counters d).Success = (stats.counters d).Success ∧
      (n ≠ 0 → (final.counters d).Total = wrapInt ((stats.counters d).Total + n)) := by
  induction n generalizing stats with
  | zero => exact ⟨stats, rfl, rfl, fun h => absurd rfl h⟩
  | succ n ih =>
    obtain ⟨final, hf, hs, ht⟩ := ih (stats.set d
      { Success := if probeSucceeded Outcome.requestError then goInc (stats.counters d).Success
          else (stats.counters d).Success,
        Total := goInc (stats.counters d).Total })
    refine ⟨final, ?_, ?_, ?_⟩
    · rw [List.replicate_succ]
      simp only [runCalls]
      rw [checkHealth_eq stats endpoint Outcome.requestError d hd]
      exact hf
    · rw [hs, Stats.counters_set_self]
      simp [probeSucceeded]
    · intro _
      rcases Nat.eq_zero_or_pos n with h0 | hpos
      · subst h0
        have hfin : final = stats.set d
            { Success := if probeSucceeded Outcome.requestError then
                goInc (stats.counters d).Success else (stats.counters d).Success,
              Total := goInc (stats.counters d).Total } := by
          simpa [runCalls] using hf.symm
        rw [hfin, Stats.counters_set_self]
        simp [goInc]
      · rw [ht (by omega), Stats.counters_set_self]
        simp only [goInc]
        rw [wrapInt_add_wrapInt]
        congr 1
        push_cast
        ring

/-- C3, as amended: from the empty registry, the pre-seeding of
monitorEndpoints and then any sequence of fewer than 2^63 checkHealth calls,
run one after the other with arbitrary endpoints and outcomes, complete and
leave a registry in which every entry has 0 ≤ success ≤ total; and a call made
in any registry state returns and lowers neither counter of a domain entry
whose counters are `int`s below the largest one, 2^63 - 1. -/
theorem registry_invariant :
    (∀ (endpoints : List Endpoint) (calls : List (Endpoint × Outcome)),
      calls.length < 2 ^ 63 →
      ∃ seeded final, preSeed [] endpoints = some seeded ∧ runCalls seeded calls = some final ∧
        ∀ d st, final.get d = some st → 0 ≤ st.Success ∧ st.Success ≤ st.Total) ∧
    (∀ (stats : Stats) (endpoint : Endpoint) (outcome : Outcome),
      ∃ stats1, checkHealth stats endpoint outcome = some stats1 ∧
        ∀ d st, stats.get d = some st →
          -2 ^ 63 ≤ st.Success → st.Success < 2 ^ 63 - 1 →
          -2 ^ 63 ≤ st.Total → st.Total < 2 ^ 63 - 1 →
          ∃ st1, stats1.get d = some st1 ∧ st.Success ≤ st1.Success ∧ st.Total ≤ st1.Total) := by
  refine ⟨?_, checkHealth_monotone⟩
  intro endpoints calls hlen
  obtain ⟨seeded, hs, hok⟩ := preSeed_countersOk endpoints [] (Stats.countersOk_nil 0)
  have hlen' : (0 : ℤ) + (calls.length : ℤ) < 2 ^ 63 := by
    have : ((calls.length : ℕ) : ℤ) < ((2 ^ 63 : ℕ) : ℤ) := by exact_mod_cast hlen
    simpa using this
  obtain ⟨final, hf, hokf⟩ := runCalls_countersOk calls seeded 0 (le_refl _) hlen' hok
  exact ⟨seeded, final, hs, hf, fun d st hst => ⟨(hokf d st hst).1, (hokf d st hst).2.1⟩⟩

/-- Witness of C3: a.com is pre-seeded and probed twice; then a third call is
made in the registry that the two calls left. -/
theorem registry_invariant_witness :
    (∃ seeded final, preSeed [] [probeA] = some seeded ∧
      runCalls seeded [(probeA, .response 200 1000), (probeB, .requestError)] = some final ∧
      ∀ d st, final.get d = some st → 0 ≤ st.Success ∧ st.Success ≤ st.Total) ∧
    (∃ stats1, checkHealth [(goStr "a.com", { Success := 1, Total := 2 })] probeA
        (.response 200 1000) = some stats1 ∧
      ∃ st1, stats1.get (goStr "a.com") = some st1 ∧ (1 : ℤ) ≤ st1.Success ∧ (2 : ℤ) ≤ st1.Total) := by
  refine ⟨registry_invariant.1 [probeA] _ (by norm_num), ?_⟩
  obtain ⟨stats1, h1, hmono⟩ := registry_invariant.2
    [(goStr "a.com", { Success := 1, Total := 2 })] probeA (.response 200 1000)
  exact ⟨stats1, h1, hmono (goStr "a.com") { Success := 1, Total := 2 } (by decide)
    (by norm_num) (by norm_num) (by norm_num) (by norm_num)⟩

/-- C3, counterexample: a.com is pre-seeded and then probed 2^63 times, each
call failing to build its request; every call executes `Total++`, the counter
wraps, and the entry reached is success = 0, total = -2^63, which breaks
success ≤ total (the last call lowered the total from 2^63 - 1 to -2^63). -/
theorem registry_invariant_overflow :
    ∃ seeded final, preSeed [] [probeA] = some seeded ∧
      runCalls seeded (List.replicate (2 ^ 63) (probeA, Outcome.requestError)) = some final ∧
      (final.counters (goStr "a.com")).Success = 0 ∧
      (final.counters (goStr "a.com")).Total = -2 ^ 63 ∧
      ¬ (final.counters (goStr "a.com")).Success ≤ (final.counters (goStr "a.com")).Total := by
  have hd : extractDomain probeA.URL = some (goStr "a.com") := by decide
  have hseed : preSeed [] [probeA] = some [(goStr "a.com", {})] := by decide
  obtain ⟨final, hf, hs, ht⟩ :=
    runCalls_requestError probeA (goStr "a.com") hd (2 ^ 63) [(goStr "a.com", {})]
  have hc : Stats.counters [(goStr "a.com", {})] (goStr "a.com") = {} := by decide
  rw [hc] at hs ht
  have ht' : (final.counters (goStr "a.com")).Total = -2 ^ 63 := by
    rw [ht (by norm_num)]
    unfold wrapInt
    norm_num
  refine ⟨_, final, hseed, hf, hs, ht', ?_⟩
  rw [hs, ht']
  norm_num

/-! ## The percentage of logResults -/

theorem roundNearestEven_intCast (n : ℤ) : roundNearestEven (n : ℚ) = n := by
  simp [roundNearestEven]

theorem roundNearestEven_error (x : ℚ) : |(roundNearestEven x : ℚ) - x| ≤ 1 / 2 := by
  have h1 : (⌊x⌋ : ℚ) ≤ x := Int.floor_le x
  have h2 : x < ⌊x⌋ + 1 := Int.lt_floor_add_one x
  unfold roundNearestEven
  rw [abs_le]
  split_ifs with ha hb hc
  · constructor <;> linarith
  · push_cast; constructor <;> linarith
  · constructor <;> linarith
  · push_cast; constructor <;> linarith

theorem binade_le (x : ℚ) (hx : 0 < x) : (2 : ℚ) ^ binade x ≤ x := by
  have h := Int.zpow_log_le_self (b := 2) (r := x) (by norm_num) hx
  simpa [binade] using h

theorem lt_binade_succ (x : ℚ) : x < (2 : ℚ) ^ (binade x + 1) := by
  have h := Int.lt_zpow_succ_log_self (b := 2) (by norm_num) x
  simpa [binade] using h

theorem binade_lt_of_lt (x : ℚ) (hx : 0 < x) (k : ℤ) (h : x < 2 ^ k) : binade x < k := by
  have h1 := binade_le x hx
  have h2 : (2 : ℚ) ^ binade x < 2 ^ k := lt_of_le_of_lt h1 h
  exact (zpow_lt_zpow_iff_right₀ (by norm_num : (1 : ℚ) < 2)).mp h2

theorem binade_eq (x : ℚ) (e : ℤ) (h1 : 2 ^ e ≤ x) (h2 : x < 2 ^ (e + 1)) : binade x = e := by
  have hx : 0 < x := lt_of_lt_of_le (zpow_pos (by norm_num) e) h1
  have ha := binade_lt_of_lt x hx (e + 1) h2
  have hb : (2 : ℚ) ^ e < 2 ^ (binade x + 1) := lt_of_le_of_lt h1 (lt_binade_succ x)
  have hc := (zpow_lt_zpow_iff_right₀ (by norm_num : (1 : ℚ) < 2)).mp hb
  omega

/-- A number with a significand below `2 ^ 53` is a `float64`: rounding leaves it. -/
theorem roundF64_exact (m : ℤ) (k : ℤ) (h0 : 0 ≤ m) (hm : m < 2 ^ 53) :
    roundF64 ((m : ℚ) * 2 ^ k) = (m : ℚ) * 2 ^ k := by
  rcases eq_or_lt_of_le h0 with h | hpos
  · subst h; simp [roundF64]
  have h2k : (0 : ℚ) < 2 ^ k := zpow_pos (by norm_num) k
  have hmq : (0 : ℚ) < m := by exact_mod_cast hpos
  have hx : (0 : ℚ) < (m : ℚ) * 2 ^ k := mul_pos hmq h2k
  have hlt : (m : ℚ) * 2 ^ k < 2 ^ (53 + k) := by
    rw [zpow_add₀ (by norm_num : (2 : ℚ) ≠ 0)]
    have : (m : ℚ) < 2 ^ (53 : ℤ) := by
      have h53 : (m : ℚ) < ((2 ^ 53 : ℤ) : ℚ) := by exact_mod_cast hm
      have e53 : (((2 : ℤ) ^ 53 : ℤ) : ℚ) = (2 : ℚ) ^ (53 : ℤ) := by norm_num
      rw [e53] at h53
      exact h53
    exact mul_lt_mul_of_pos_right this h2k
  have he := binade_lt_of_lt _ hx _ hlt
  set e := binade ((m : ℚ) * 2 ^ k) with hedef
  obtain ⟨j, hj⟩ : ∃ j : ℕ, (j : ℤ) = k - (e - 52) := ⟨(k - (e - 52)).toNat, by omega⟩
  have hdiv : (m : ℚ) * 2 ^ k / 2 ^ (e - 52) = ((m * 2 ^ j : ℤ) : ℚ) := by
    rw [mul_div_assoc, ← zpow_sub₀ (by norm_num : (2 : ℚ) ≠ 0), ← hj]
    push_cast
    rw [zpow_natCast]
  unfold roundF64
  rw [if_neg (ne_of_gt hx), if_pos hx, ← hedef, hdiv, roundNearestEven_intCast]
  push_cast
  rw [mul_assoc, ← zpow_natCast, hj, ← zpow_add₀ (by norm_num : (2 : ℚ) ≠ 0)]
  congr 2
  ring

/-- The rounding error is at most half a unit in the last place. -/
theorem roundF64_error (x : ℚ) (hx : 0 < x) (k : ℤ) (h : x < 2 ^ k) :
    |roundF64 x - x| ≤ 2 ^ (k - 54) := by
  have he := binade_lt_of_lt x hx k h
  have hu : (0 : ℚ) < 2 ^ (binade x - 52) := zpow_pos (by norm_num) _
  unfold roundF64
  rw [if_neg (ne_of_gt hx), if_pos hx]
  have herr := roundNearestEven_error (x / 2 ^ (binade x - 52))
  have h1 : (roundNearestEven (x / 2 ^ (binade x - 52)) : ℚ) * 2 ^ (binade x - 52) - x
      = ((roundNearestEven (x / 2 ^ (binade x - 52)) : ℚ) - x / 2 ^ (binade x - 52))
        * 2 ^ (binade x - 52) := by
    field_simp
  rw [h1, abs_mul, abs_of_pos hu]
  have h2 : (2 : ℚ) ^ (binade x - 52) ≤ 2 ^ (k - 53) :=
    zpow_le_zpow_right₀ (by norm_num) (by omega)
  have h3 : (2 : ℚ) ^ (k - 54) = 1 / 2 * 2 ^ (k - 53) := by
    rw [show k - 54 = (k - 53) + (-1) by ring, zpow_add₀ (by norm_num : (2 : ℚ) ≠ 0)]
    norm_num
    ring
  rw [h3]
  exact mul_le_mul herr h2 (le_of_lt hu) (by norm_num)

theorem float64_exact (n : ℤ) (h0 : 0 ≤ n) (hn : n < 2 ^ 53) : float64 n = n := by
  have h := roundF64_exact n 0 h0 hn
  simpa [float64] using h

theorem roundF64_nonneg (x : ℚ) (hx : 0 ≤ x) : 0 ≤ roundF64 x := by
  rcases eq_or_lt_of_le hx with h | hpos
  · subst h; simp [roundF64]
  unfold roundF64
  rw [if_neg (ne_of_gt hpos), if_pos hpos]
  have hu : (0 : ℚ) < 2 ^ (binade x - 52) := zpow_pos (by norm_num) _
  apply mul_nonneg _ (le_of_lt hu)
  have h1 : (0 : ℚ) ≤ x / 2 ^ (binade x - 52) := div_nonneg hx (le_of_lt hu)
  have h2 : (0 : ℤ) ≤ ⌊x / 2 ^ (binade x - 52)⌋ := Int.floor_nonneg.mpr h1
  unfold roundNearestEven
  split_ifs <;> first
    | exact_mod_cast h2
    | (have h3 : (0 : ℤ) ≤ ⌊x / 2 ^ (binade x - 52)⌋ + 1 := by omega
       exact_mod_cast h3)

/-- The quotient computed by logResults rounds to the same integer as the
exact quotient, for totals up to `2 ^ 46`. -/
theorem floor_roundF64_quotient (s t : ℤ) (h0 : 0 ≤ s) (hst : s ≤ t) (ht : 0 < t)
    (hb : t ≤ 2 ^ 46) :
    ⌊roundF64 ((100 * s : ℚ) / t) + 1 / 2⌋ = ⌊(100 * s : ℚ) / t + 1 / 2⌋ := by
  have htq : (0 : ℚ) < t := by exact_mod_cast ht
  have hsq : (0 : ℚ) ≤ s := by exact_mod_cast h0
  have hstq : (s : ℚ) ≤ t := by exact_mod_cast hst
  set x : ℚ := (100 * s : ℚ) / t with hx
  set p : ℤ := ⌊x + 1 / 2⌋ with hp
  have hxt : x * t = 100 * s := by rw [hx]; field_simp
  have hx0 : 0 ≤ x := div_nonneg (by linarith) (le_of_lt htq)
  have hx100 : x ≤ 100 := by
    rw [hx, div_le_iff₀ htq]; linarith
  have hp1 : (p : ℚ) ≤ x + 1 / 2 := Int.floor_le _
  have hp2 : x + 1 / 2 < p + 1 := Int.lt_floor_add_one _
  have hp0 : 0 ≤ p := Int.floor_nonneg.mpr (by linarith)
  have hp100 : p ≤ 100 := by
    have : (p : ℚ) < 101 := by linarith
    have : p < 101 := by exact_mod_cast this
    omega
  -- the integer distances to the two neighbouring half-integers
  have hA : (2 * p - 1) * t ≤ 200 * s := by
    have : ((2 * p - 1) * t : ℚ) ≤ 200 * s := by nlinarith
    exact_mod_cast this
  have hB : 200 * s + 1 ≤ (2 * p + 1) * t := by
    have : (200 * s : ℚ) < (2 * p + 1) * t := by nlinarith
    have : 200 * s < (2 * p + 1) * t := by exact_mod_cast this
    omega
  by_cases hexact : roundF64 x = x
  · rw [hexact]
  -- otherwise the quotient is not a `float64`, and the error bound applies
  have hs0 : s ≠ 0 := by
    rintro rfl
    apply hexact
    simp [hx, roundF64]
  have hxpos : 0 < x := by
    have : (0 : ℚ) < s := lt_of_le_of_ne hsq (by exact_mod_cast (Ne.symm hs0))
    rw [hx]; positivity
  have htlt : t < 2 ^ 46 := by
    rcases lt_or_eq_of_le hb with h | h
    · exact h
    · exfalso
      apply hexact
      have hx46 : x = ((100 * s : ℤ) : ℚ) * 2 ^ (-46 : ℤ) := by
        rw [hx, h]; push_cast
        rw [zpow_neg, div_eq_mul_inv]; norm_num
      rw [hx46]
      exact roundF64_exact (100 * s) (-46) (by omega) (by omega)
  have hA1 : (2 * p - 1) * t + 1 ≤ 200 * s := by
    rcases lt_or_eq_of_le hA with h | h
    · omega
    · exfalso
      apply hexact
      have hxh : x = ((2 * p - 1 : ℤ) : ℚ) * 2 ^ (-1 : ℤ) := by
        have hq : ((2 * p - 1) * t : ℚ) = 200 * s := by exact_mod_cast h
        have : x = (2 * p - 1) / 2 := by
          rw [hx, div_eq_div_iff (ne_of_gt htq) (by norm_num)]; linarith
        rw [this]; push_cast
        rw [zpow_neg, div_eq_mul_inv]; norm_num
      have hppos : 0 ≤ 2 * p - 1 := by
        by_contra hneg
        have hpz : p = 0 := by omega
        rw [hpz] at h
        have : 0 < 200 * s := by
          have := lt_of_le_of_ne h0 (Ne.symm hs0)
          omega
        nlinarith
      rw [hxh]
      exact roundF64_exact (2 * p - 1) (-1) hppos (by omega)
  have herr := roundF64_error x hxpos 7 (by norm_num; linarith)
  rw [abs_le] at herr
  have hδ : (2 : ℚ) ^ ((7 : ℤ) - 54) = 1 / 140737488355328 := by
    rw [show (7 : ℤ) - 54 = -47 by norm_num, zpow_neg]; norm_num
  rw [hδ] at herr
  have htq46 : (t : ℚ) ≤ 70368744177663 := by
    have : t ≤ 70368744177663 := by omega
    exact_mod_cast this
  have hA1q : ((2 * p - 1) * t : ℚ) + 1 ≤ 200 * s := by exact_mod_cast hA1
  have hBq : (200 * s : ℚ) + 1 ≤ (2 * p + 1) * t := by exact_mod_cast hB
  have hyl : (x - 1 / 140737488355328) * t ≤ roundF64 x * t :=
    mul_le_mul_of_nonneg_right (by linarith [herr.1]) (le_of_lt htq)
  have hyu : roundF64 x * t ≤ (x + 1 / 140737488355328) * t :=
    mul_le_mul_of_nonneg_right (by linarith [herr.2]) (le_of_lt htq)
  rw [Int.floor_eq_iff]
  constructor
  · have : (p : ℚ) * t ≤ (roundF64 x + 1 / 2) * t := by nlinarith
    exact le_of_mul_le_mul_right this htq
  · have : (roundF64 x + 1 / 2) * t < ((p : ℚ) + 1) * t := by nlinarith
    exact lt_of_mul_lt_mul_right this (le_of_lt htq)

theorem roundNearestEven_eq_of_abs_lt (z : ℚ) (m : ℤ) (h : |z - m| < 1 / 2) :
    roundNearestEven z = m := by
  rw [abs_lt] at h
  rcases le_or_lt (m : ℚ) z with hle | hlt
  · have hf : ⌊z⌋ = m := by
      rw [Int.floor_eq_iff]; constructor <;> linarith
    unfold roundNearestEven
    rw [hf, if_pos (by linarith)]
  · have hf : ⌊z⌋ = m - 1 := by
      rw [Int.floor_eq_iff]; push_cast; constructor <;> linarith
    unfold roundNearestEven
    rw [hf]
    push_cast
    rw [if_neg (by linarith), if_pos (by linarith)]
    ring

/-- Rounding of a positive number whose binade and rounded significand are known. -/
theorem roundF64_of_bounds (x : ℚ) (e m : ℤ) (h1 : 2 ^ e ≤ x) (h2 : x < 2 ^ (e + 1))
    (hm : |x / 2 ^ (e - 52) - m| < 1 / 2) : roundF64 x = m * 2 ^ (e - 52) := by
  have hx : 0 < x := lt_of_lt_of_le (zpow_pos (by norm_num) e) h1
  have he := binade_eq x e h1 h2
  unfold roundF64
  rw [if_neg (ne_of_gt hx), if_pos hx, he, roundNearestEven_eq_of_abs_lt _ m hm]

theorem availability_eq_floor (s t : ℤ) (h0 : 0 ≤ s) (hst : s ≤ t) (ht : 0 < t)
    (hb : t ≤ 2 ^ 46) :
    availability { Success := s, Total := t } = ⌊(100 * s : ℚ) / t + 1 / 2⌋ := by
  have hs : float64 s = s := float64_exact s h0 (by omega)
  have hT : float64 t = t := float64_exact t (by omega) (by omega)
  have hm : f64mul 100 (float64 s) = 100 * s := by
    have h := roundF64_exact (100 * s) 0 (by omega) (by omega)
    rw [hs]
    simpa [f64mul] using h
  have htq : (0 : ℚ) < t := by exact_mod_cast ht
  have hsq : (0 : ℚ) ≤ s := by exact_mod_cast h0
  have hy : 0 ≤ roundF64 ((100 * s : ℚ) / t) :=
    roundF64_nonneg _ (div_nonneg (by linarith) (le_of_lt htq))
  have hfl : (0 : ℤ) ≤ ⌊roundF64 ((100 * s : ℚ) / t) + 1 / 2⌋ :=
    Int.floor_nonneg.mpr (by linarith)
  unfold availability
  simp only [gt_iff_lt, ht, if_true]
  rw [hm, hT]
  unfold f64div mathRound floatToInt
  rw [if_pos hy, if_pos (by exact_mod_cast hfl), Int.floor_intCast]
  exact floor_roundF64_quotient s t h0 hst ht hb

theorem isNearestPercent_floor (s t : ℤ) (ht : 0 < t) :
    IsNearestPercent s t ⌊(100 * s : ℚ) / t + 1 / 2⌋ := by
  have htq : (0 : ℚ) < t := by exact_mod_cast ht
  set x : ℚ := (100 * s : ℚ) / t with hx
  have hxt : x * t = 100 * s := by rw [hx]; field_simp
  have hp1 : ((⌊x + 1 / 2⌋ : ℤ) : ℚ) ≤ x + 1 / 2 := Int.floor_le _
  have hp2 : x + 1 / 2 < (⌊x + 1 / 2⌋ : ℤ) + 1 := Int.lt_floor_add_one _
  constructor
  · have : (t * (2 * ⌊x + 1 / 2⌋ - 1) : ℚ) ≤ 200 * s := by nlinarith
    exact_mod_cast this
  · have : (200 * s : ℚ) < t * (2 * ⌊x + 1 / 2⌋ + 1) := by nlinarith
    exact_mod_cast this

theorem availability_tie_example :
    availability { Success := 48202589761706, Total := 70368744177673 } = 69 := by
  have hs : float64 48202589761706 = 48202589761706 := by
    have h := float64_exact 48202589761706 (by norm_num) (by norm_num)
    exact_mod_cast h
  have hT : float64 70368744177673 = 70368744177673 := by
    have h := float64_exact 70368744177673 (by norm_num) (by norm_num)
    exact_mod_cast h
  have hm : f64mul 100 48202589761706 = 4820258976170600 := by
    have h := roundF64_exact 4820258976170600 0 (by norm_num) (by norm_num)
    have e : (100 : ℚ) * 48202589761706 = ((4820258976170600 : ℤ) : ℚ) * 2 ^ (0 : ℤ) := by
      norm_num
    rw [f64mul, e, h]
    norm_num
  have hd : f64div 4820258976170600 70368744177673 = 137 / 2 := by
    have h := roundF64_of_bounds ((4820258976170600 : ℚ) / 70368744177673) 6
      4820258976169984 (by norm_num) (by norm_num) (by
        rw [show (6 : ℤ) - 52 = -46 by norm_num, zpow_neg, abs_lt]
        constructor <;> norm_num)
    rw [f64div, h]
    rw [show (6 : ℤ) - 52 = -46 by norm_num, zpow_neg]
    norm_num
  unfold availability
  simp only [gt_iff_lt, show (0 : ℤ) < 70368744177673 by norm_num, if_true]
  have hs' : float64 48202589761706 = (48202589761706 : ℚ) := hs
  rw [hs', hT, hm, hd]
  unfold mathRound floatToInt
  rw [if_pos (by norm_num)]
  have hfl : ⌊(137 : ℚ) / 2 + 1 / 2⌋ = 69 := by
    rw [Int.floor_eq_iff]; constructor <;> norm_num
  rw [hfl]
  norm_num

theorem availability_three_of_four : availability { Success := 3, Total := 4 } = 75 := by
  rw [availability_eq_floor 3 4 (by norm_num) (by norm_num) (by norm_num) (by norm_num),
    Int.floor_eq_iff]
  constructor <;> norm_num

theorem availability_one_of_two : availability { Success := 1, Total := 2 } = 50 := by
  rw [availability_eq_floor 1 2 (by norm_num) (by norm_num) (by norm_num) (by norm_num),
    Int.floor_eq_iff]
  constructor <;> norm_num

/-- C4, as amended: for an entry with 0 ≤ success ≤ total and total at most
2^46, the percentage computed by logResults is 0 when total = 0 (the division
is not evaluated) and otherwise the integer nearest to 100*success/total, a tie
going away from zero; it is 75 for (3, 4) and 0 for (0, 0). -/
theorem availability_nearest (s t : ℤ) (h0 : 0 ≤ s) (hst : s ≤ t) (hb : t ≤ 2 ^ 46) :
    (t = 0 → availability { Success := s, Total := t } = 0) ∧
    (0 < t → IsNearestPercent s t (availability { Success := s, Total := t })) ∧
    availability { Success := 3, Total := 4 } = 75 ∧
    availability { Success := 0, Total := 0 } = 0 := by
  refine ⟨?_, ?_, availability_three_of_four, by simp [availability]⟩
  · intro ht
    simp [availability, ht]
  · intro ht
    rw [availability_eq_floor s t h0 hst ht hb]
    exact isNearestPercent_floor s t ht

/-- Witness of C4 at success = 3, total = 4. -/
theorem availability_nearest_witness :
    (0 : ℤ) ≤ 3 ∧ (3 : ℤ) ≤ 4 ∧ (4 : ℤ) ≤ 2 ^ 46 ∧
    IsNearestPercent 3 4 (availability { Success := 3, Total := 4 }) :=
  ⟨by norm_num, by norm_num, by norm_num,
    (availability_nearest 3 4 (by norm_num) (by norm_num) (by norm_num)).2.1 (by norm_num)⟩

/-- C4, counterexample: for success = 48202589761706 and total =
70368744177673 = 2^46 + 9 the quotient 100*success/total lies just below 68.5,
so the nearest integer is 68; the `float64` division rounds it to 68.5 and
logResults prints 69. -/
theorem availability_not_nearest :
    (0 : ℤ) ≤ 48202589761706 ∧ (48202589761706 : ℤ) ≤ 70368744177673 ∧
    availability { Success := 48202589761706, Total := 70368744177673 } = 69 ∧
    IsNearestPercent 48202589761706 70368744177673 68 ∧
    ¬ IsNearestPercent 48202589761706 70368744177673
      (availability { Success := 48202589761706, Total := 70368744177673 }) := by
  refine ⟨by norm_num, by norm_num, availability_tie_example, ?_, ?_⟩
  · constructor <;> norm_num
  · rw [availability_tie_example]
    unfold IsNearestPercent
    norm_num

theorem availability_one_of_one : availability { Success := 1, Total := 1 } = 100 := by
  rw [availability_eq_floor 1 1 (by norm_num) (by norm_num) (by norm_num) (by norm_num),
    Int.floor_eq_iff]
  constructor <;> norm_num

theorem stepProbeAt_of_length_le (ps : List Probe) (i : Nat) (entry : DomainStats)
    (h : ps.length ≤ i) : stepProbeAt ps i entry = (ps, entry) := by
  induction ps generalizing i with
  | nil => rfl
  | cons p ps ih =>
    cases i with
    | zero => simp at h
    | succ i =>
      have := ih i (by simpa using h)
      simp [stepProbeAt, this]

theorem cycleStates_closed (view : ProbePhase × ProbePhase × ℤ × ℤ → List Probe × DomainStats)
    (hview : view = cycleStateSF ∨ view = cycleStateFS) (st : List Probe × DomainStats)
    (hst : st ∈ cycleStates.map view) (i : Nat) :
    stepProbeAt st.1 i st.2 ∈ cycleStates.map view := by
  have hlen : st.1.length = 2 := by
    rcases hview with rfl | rfl <;>
    · obtain ⟨c, _, rfl⟩ := List.mem_map.mp hst
      rfl
  rcases Nat.lt_or_ge i 2 with hi | hi
  · have hstep : ∀ view ∈ [cycleStateSF, cycleStateFS], ∀ c ∈ cycleStates, ∀ j ∈ [0, 1],
        stepProbeAt (view c).1 j (view c).2 ∈ cycleStates.map view := by
      intro view hv
      simp only [List.mem_cons, List.mem_singleton, List.not_mem_nil, or_false] at hv
      rcases hv with rfl | rfl <;> decide
    obtain ⟨c, hc, rfl⟩ := List.mem_map.mp hst
    have hv : view ∈ [cycleStateSF, cycleStateFS] := by
      rcases hview with rfl | rfl <;> simp
    have hj : i ∈ [0, 1] := by
      simp only [List.mem_cons, List.mem_singleton, List.not_mem_nil, or_false]
      omega
    exact hstep view hv c hc i hj
  · rw [stepProbeAt_of_length_le st.1 i st.2 (by omega)]
    exact hst

theorem runProbes_cycleStates
    (view : ProbePhase × ProbePhase × ℤ × ℤ → List Probe × DomainStats)
    (hview : view = cycleStateSF ∨ view = cycleStateFS) (schedule : List Nat)
    (st : List Probe × DomainStats) (hst : st ∈ cycleStates.map view) :
    runProbes st schedule ∈ cycleStates.map view := by
  induction schedule generalizing st with
  | nil => exact hst
  | cons i rest ih => exact ih _ (cycleStates_closed view hview st hst i)

theorem cycleStates_finished
    (view : ProbePhase × ProbePhase × ℤ × ℤ → List Probe × DomainStats)
    (hview : view = cycleStateSF ∨ view = cycleStateFS) (st : List Probe × DomainStats)
    (hst : st ∈ cycleStates.map view) (hfin : allFinished st.1 = true) :
    st.2 = { Success := 1, Total := 2 } ∨ st.2 = { Success := 1, Total := 1 } := by
  have hall : ∀ view ∈ [cycleStateSF, cycleStateFS], ∀ c ∈ cycleStates,
      allFinished (view c).1 = true →
      (view c).2 = { Success := 1, Total := 2 } ∨ (view c).2 = { Success := 1, Total := 1 } := by
    intro view hv
    simp only [List.mem_cons, List.mem_singleton, List.not_mem_nil, or_false] at hv
    rcases hv with rfl | rfl <;> decide
  obtain ⟨c, hc, rfl⟩ := List.mem_map.mp hst
  have hv : view ∈ [cycleStateSF, cycleStateFS] := by
    rcases hview with rfl | rfl <;> simp
  exact hall view hv c hc hfin

/-- C5, as amended: two endpoints whose addresses map to the same domain
label, starting from the empty registry, after the pre-seeding (in either
configuration order) and one cycle in which the probe of one is classified
successful and the probe of the other failed.  If the two invocations update
the counters one after the other (in either order), the registry is the single
entry of that domain with success = 1 and total = 2, and logResults reports 50
for it.  The goroutines of the cycle are not synchronised: under an arbitrary
interleaving of their counter updates, once both have completed, the entry is
success = 1 with total = 2 (report 50) or with total = 1 (report 100). -/
theorem same_domain_half_availability (es ef : Endpoint) (d : GoString)
    (outS outF : Outcome)
    (hs : extractDomain es.URL = some d) (hf : extractDomain ef.URL = some d)
    (hS : ∃ statusCode duration, outS = .response statusCode duration ∧
      200 ≤ statusCode ∧ statusCode ≤ 299 ∧ duration ≤ 500 * millisecond)
    (hF : ¬ ∃ statusCode duration, outF = .response statusCode duration ∧
      200 ≤ statusCode ∧ statusCode ≤ 299 ∧ duration ≤ 500 * millisecond) :
    (∀ cfg ∈ [[es, ef], [ef, es]],
      ∀ calls ∈ [[(es, outS), (ef, outF)], [(ef, outF), (es, outS)]],
      ∃ seeded final, preSeed [] cfg = some seeded ∧ runCalls seeded calls = some final ∧
        final = [(d, { Success := 1, Total := 2 })] ∧ logResults final = [(d, 50)]) ∧
    (∀ outcomes ∈ [[outS, outF], [outF, outS]], ∀ schedule : List Nat,
      allFinished (runProbes (dispatchProbes outcomes) schedule).1 = true →
      ((runProbes (dispatchProbes outcomes) schedule).2 = { Success := 1, Total := 2 } ∧
        logResults [(d, (runProbes (dispatchProbes outcomes) schedule).2)] = [(d, 50)]) ∨
      ((runProbes (dispatchProbes outcomes) schedule).2 = { Success := 1, Total := 1 } ∧
        logResults [(d, (runProbes (dispatchProbes outcomes) schedule).2)] = [(d, 100)])) := by
  have hpS : probeSucceeded outS = true := (probeSucceeded_iff outS).mpr hS
  have hpF : probeSucceeded outF = false := by
    rw [← Bool.not_eq_true, probeSucceeded_iff]; exact hF
  constructor
  · have hseed : ∀ cfg ∈ [[es, ef], [ef, es]], preSeed [] cfg = some [(d, {})] := by
      intro cfg hcfg
      simp only [List.mem_cons, List.mem_singleton, List.not_mem_nil, or_false] at hcfg
      rcases hcfg with rfl | rfl <;>
        simp [preSeed, hs, hf, Stats.ensure, Stats.get, Stats.set]
    have hlog : logResults [(d, { Success := 1, Total := 2 })] = [(d, 50)] := by
      simp [logResults, availability_one_of_two]
    intro cfg hcfg calls hcalls
    refine ⟨_, _, hseed cfg hcfg, ?_, rfl, hlog⟩
    simp only [List.mem_cons, List.mem_singleton, List.not_mem_nil, or_false] at hcalls
    have h01 : goInc 0 = 1 := goInc_of_lt 0 (by norm_num) (by norm_num)
    have h12 : goInc 1 = 2 := goInc_of_lt 1 (by norm_num) (by norm_num)
    rcases hcalls with rfl | rfl <;>
      simp [runCalls, checkHealth_eq _ _ _ d hs, checkHealth_eq _ _ _ d hf, hpS, hpF,
        Stats.set, Stats.counters, Stats.get, h01, h12]
  · intro outcomes hout schedule hfin
    simp only [List.mem_cons, List.mem_singleton, List.not_mem_nil, or_false] at hout
    have hmem : ∃ view, (view = cycleStateSF ∨ view = cycleStateFS) ∧
        dispatchProbes outcomes ∈ cycleStates.map view := by
      rcases hout with rfl | rfl
      · refine ⟨cycleStateSF, Or.inl rfl, ?_⟩
        simp only [dispatchProbes, List.map_cons, List.map_nil, hpS, hpF]
        decide
      · refine ⟨cycleStateFS, Or.inr rfl, ?_⟩
        simp only [dispatchProbes, List.map_cons, List.map_nil, hpS, hpF]
        decide
    obtain ⟨view, hview, hinit⟩ := hmem
    have hend := runProbes_cycleStates view hview schedule _ hinit
    rcases cycleStates_finished view hview _ hend hfin with h | h
    · exact Or.inl ⟨h, by rw [h]; simp [logResults, availability_one_of_two]⟩
    · exact Or.inr ⟨h, by rw [h]; simp [logResults, availability_one_of_one]⟩

/-- Witness of C5: the two a.com endpoints, the first probe answered 200 in
1 µs and the second answered 404; the probes run one after the other, and
under the interleaving that lets the first invocation finish before the second
starts. -/
theorem same_domain_half_availability_witness :
    (∃ seeded final, preSeed [] [probeA, probeB] = some seeded ∧
      runCalls seeded [(probeA, .response 200 1000), (probeB, .response 404 1000)] = some final ∧
      final = [(goStr "a.com", { Success := 1, Total := 2 })] ∧
      logResults final = [(goStr "a.com", 50)]) ∧
    (((runProbes (dispatchProbes [.response 200 1000, .response 404 1000])
          [0, 0, 0, 0, 1, 1]).2 = { Success := 1, Total := 2 } ∧
        logResults [(goStr "a.com", (runProbes
          (dispatchProbes [.response 200 1000, .response 404 1000]) [0, 0, 0, 0, 1, 1]).2)]
          = [(goStr "a.com", 50)]) ∨
      ((runProbes (dispatchProbes [.response 200 1000, .response 404 1000])
          [0, 0, 0, 0, 1, 1]).2 = { Success := 1, Total := 1 } ∧
        logResults [(goStr "a.com", (runProbes
          (dispatchProbes [.response 200 1000, .response 404 1000]) [0, 0, 0, 0, 1, 1]).2)]
          = [(goStr "a.com", 100)])) :=
  ⟨(same_domain_half_availability probeA probeB (goStr "a.com") (.response 200 1000)
      (.response 404 1000) (by decide) (by decide)
      ⟨200, 1000, rfl, by decide, by decide, by decide⟩
      (by rintro ⟨sc, du, h, h1, h2, h3⟩; cases h; omega)).1
      _ (List.mem_cons_self _ _) _ (List.mem_cons_self _ _),
    (same_domain_half_availability probeA probeB (goStr "a.com") (.response 200 1000)
      (.response 404 1000) (by decide) (by decide)
      ⟨200, 1000, rfl, by decide, by decide, by decide⟩
      (by rintro ⟨sc, du, h, h1, h2, h3⟩; cases h; omega)).2
      _ (List.mem_cons_self _ _) [0, 0, 0, 0, 1, 1] (by decide)⟩

/-- C5, counterexample: the two a.com endpoints are pre-seeded and probed in
one cycle, the first probe answered 200 and the second 404.  Both invocations
read total = 0 before either writes, both write 1, then the first one runs
`Success++`: both have completed, the entry is success = 1, total = 1 instead
of total = 2, and logResults reports 100 instead of 50. -/
theorem same_domain_lost_update :
    extractDomain probeA.URL = some (goStr "a.com") ∧
    extractDomain probeB.URL = some (goStr "a.com") ∧
    preSeed [] [probeA, probeB] = some [(goStr "a.com", {})] ∧
    allFinished (runProbes (dispatchProbes [.response 200 1000, .response 404 1000])
      [0, 1, 0, 1, 0, 0]).1 = true ∧
    (runProbes (dispatchProbes [.response 200 1000, .response 404 1000])
      [0, 1, 0, 1, 0, 0]).2 = { Success := 1, Total := 1 } ∧
    logResults [(goStr "a.com", (runProbes
      (dispatchProbes [.response 200 1000, .response 404 1000]) [0, 1, 0, 1, 0, 0]).2)]
      = [(goStr "a.com", 100)] ∧
    logResults [(goStr "a.com", (runProbes
      (dispatchProbes [.response 200 1000, .response 404 1000]) [0, 1, 0, 1, 0, 0]).2)]
      ≠ [(goStr "a.com", 50)] := by
  have hrun : (runProbes (dispatchProbes [.response 200 1000, .response 404 1000])
      [0, 1, 0, 1, 0, 0]).2 = { Success := 1, Total := 1 } := by decide
  refine ⟨by decide, by decide, by decide, by decide, hrun, ?_, ?_⟩
  · rw [hrun]; simp [logResults, availability_one_of_one]
  · rw [hrun]; simp [logResults, availability_one_of_one]

/-! ## Interleavings of the unsynchronised increment -/

theorem doneCount_le_length (ps : List Phase) : doneCount ps ≤ ps.length := by
  induction ps with
  | nil => simp [doneCount]
  | cons p ps ih => cases p <;> simp [doneCount] <;> omega

end SRE
